import Mathlib

/-!
Verification development for the static-site packager (a browser utility that
ingests a folder of site files, scans HTML for `[[name]]` / `{{name}}`
placeholders, substitutes user-supplied values and cross-file links, rewrites
relative links, and packages everything into a deployable ZIP archive).

The program text is embedded shallowly: strings are `List Char`, JavaScript
regex replacement is modelled by an explicit left-to-right scan-and-replace
combinator (`gsub`) together with a faithful model of JavaScript replacement
templates (`jsRepl`, handling `$$`, `$&`, backtick, quote and `$n` escapes),
and browser `URL` resolution is modelled by `resolveUrl` (scheme detection,
backslash normalisation, query/fragment stripping and RFC dot-segment
removal; percent-encoding is not modelled as no claim depends on it).
-/

/-- Characters accepted by the JavaScript `\s` class and `String.trim`
(the ASCII whitespace characters plus the common Unicode ones). -/
def jsWsChar (c : Char) : Bool :=
  c = ' ' || c = '\t' || c = '\n' || c = '\r' || c = '\x0b' || c = '\x0c' ||
  c = Char.ofNat 160 || c = Char.ofNat 8232 || c = Char.ofNat 8233 || c = Char.ofNat 65279

/-- Shorthand turning a string literal into the character-list representation. -/
def strL (s : String) : List Char := s.toList

/-- Length of the leading whitespace run of a string. -/
def wsRunLen (s : List Char) : Nat := (s.takeWhile jsWsChar).length

/-- Model of JavaScript `String.prototype.trim`. -/
def jsTrim (s : List Char) : List Char :=
  ((s.dropWhile jsWsChar).reverse.dropWhile jsWsChar).reverse

/-- ASCII lowering of one character (model of `toLowerCase` on the ASCII range). -/
def asciiLowerChar (c : Char) : Char :=
  if 'A' ≤ c ∧ c ≤ 'Z' then Char.ofNat (c.toNat + 32) else c

/-- ASCII lowering of a string. -/
def asciiLower (s : List Char) : List Char := s.map asciiLowerChar

/-- First index at which `pat` occurs as a prefix of a suffix of `s`
(model of JavaScript `String.prototype.indexOf`). -/
def findSubIdx (pat : List Char) : List Char → Option Nat
  | [] => if pat.isPrefixOf [] then some 0 else none
  | c :: r =>
    if pat.isPrefixOf (c :: r) then some 0
    else (findSubIdx pat r).map (fun i => i + 1)

/-- Substring test (model of JavaScript `String.prototype.includes`). -/
def containsSub (s pat : List Char) : Bool := (findSubIdx pat s).isSome

/-- The single quote character, kept out of literal syntax. -/
def quoteCh : Char := Char.ofNat 39

/-- The backtick character, kept out of literal syntax. -/
def backtickCh : Char := Char.ofNat 96

/-- The open-brace character. -/
def obraceCh : Char := Char.ofNat 123

/-- The close-brace character. -/
def cbraceCh : Char := Char.ofNat 125

/-- Model of the JavaScript replacement-template expansion performed by
`String.prototype.replace`: `$$` inserts a dollar, `$&` the matched text,
a dollar followed by a backtick the text before the match, a dollar followed
by a quote the text after the match, and `$n` the n-th capture group when it
exists; any other `$` sequence is literal. -/
def jsRepl (groups : List (List Char)) (mtch pre post : List Char) :
    List Char → List Char
  | [] => []
  | c :: r =>
    if c = '$' then
      match r with
      | [] => ['$']
      | d :: r2 =>
        if d = '$' then '$' :: jsRepl groups mtch pre post r2
        else if d = '&' then mtch ++ jsRepl groups mtch pre post r2
        else if d = backtickCh then pre ++ jsRepl groups mtch pre post r2
        else if d = quoteCh then post ++ jsRepl groups mtch pre post r2
        else if d.isDigit ∧ 1 ≤ d.toNat - 48 ∧ d.toNat - 48 ≤ groups.length then
          groups.getD (d.toNat - 49) [] ++ jsRepl groups mtch pre post r2
        else '$' :: jsRepl groups mtch pre post (d :: r2)
    else c :: jsRepl groups mtch pre post r

/-- A replacement string is inserted verbatim exactly when it has no dollar. -/
def DollarFree (s : List Char) : Prop := '$' ∉ s

/-- Model of a JavaScript `Map` built from a list of key/value pairs:
later entries overwrite earlier ones, so lookup finds the last binding. -/
def jsMapGet {α : Type} (l : List (List Char × α)) (k : List Char) : Option α :=
  (l.reverse.find? (fun kv => decide (kv.1 = k))).map (fun kv => kv.2)

/-- A matcher consumed by the scan-and-replace combinator: given the text
before the current position and the current suffix, it either fails or
returns how many characters the match consumes together with the
replacement text. -/
def JsMatcher : Type := List Char → List Char → Option (Nat × List Char)

/-- Fuel-indexed core of the global-replace combinator: scan left to right,
at each position either apply the matcher (consuming at least one character)
or copy one character. The fuel only bounds recursion; `s.length` is always
sufficient. -/
def gsubF (m : JsMatcher) : Nat → List Char → List Char → List Char
  | _, _, [] => []
  | 0, _, _ :: _ => []
  | fuel + 1, pre, c :: rest =>
    match m pre (c :: rest) with
    | some (Nat.succ n, repl) =>
      repl ++ gsubF m fuel (pre ++ (c :: rest).take (n + 1)) (rest.drop n)
    | _ => c :: gsubF m fuel (pre ++ [c]) rest

/-- Model of a global (`g`-flagged) JavaScript regex replacement driven by a
matcher. -/
def gsub (m : JsMatcher) (s : List Char) : List Char := gsubF m s.length [] s

/-- The file record kept for every uploaded file (`SiteFile` in `types.ts`);
binary payloads are represented by their byte text. -/
structure SiteFile where
  id : List Char
  path : List Char
  name : List Char
  content : List Char
  type : List Char
  objectUrl : Option (List Char)
deriving DecidableEq, Repr

/-- The record kept for every uploaded HTML file (`HtmlFile` in `types.ts`);
the two JavaScript objects holding placeholder values and link targets are
association lists in insertion order. -/
structure HtmlFile where
  id : List Char
  path : List Char
  name : List Char
  content : List Char
  type : List Char
  objectUrl : Option (List Char)
  isMain : Bool
  newFileName : List Char
  placeholders : List (List Char)
  placeholderValues : List (List Char × List Char)
  linkPlaceholders : List (List Char × List Char)
deriving DecidableEq, Repr

/-- The project state managed by the `App` component. -/
structure ProjState where
  files : List SiteFile
  htmlFiles : List HtmlFile
  globalScripts : List Char
deriving DecidableEq, Repr

/-- Model of `handleDeleteFile` in `App.tsx`: if the id names an uploaded
file, drop it from both lists and blank every link-placeholder entry of the
remaining HTML files that pointed at it; otherwise leave the state unchanged. -/
def handleDeleteFile (st : ProjState) (fileIdToDelete : List Char) : ProjState :=
  match st.files.find? (fun f => decide (f.id = fileIdToDelete)) with
  | none => st
  | some _ =>
    { st with
      files := st.files.filter (fun f => decide (¬ f.id = fileIdToDelete))
      htmlFiles :=
        (st.htmlFiles.map (fun hf =>
          { hf with linkPlaceholders :=
              hf.linkPlaceholders.map (fun kv =>
                (kv.1, if kv.2 = fileIdToDelete then [] else kv.2)) })).filter
          (fun hf => decide (¬ hf.id = fileIdToDelete)) }

/-- Error message thrown by every AI-service entry point when the API key is
empty (`geminiService.ts`). -/
def apiKeyMissingMsg : List Char := strL "API-ключ не предоставлен."

/-- Model of `optimizeFileName` in `geminiService.ts` as a function of the
API key and the model's response text: with an empty key it fails before any
request; otherwise the response is trimmed, lowered, stripped of a trailing
`.html`, and validated against `^[a-z0-9-]+$` with the fallback name. -/
def optimizeFileName (apiKey resp : List Char) : Except (List Char) (List Char) :=
  if apiKey = [] then Except.error apiKeyMissingMsg
  else
    let t0 := asciiLower (jsTrim resp)
    let text := if (strL ".html").isSuffixOf t0 then t0.dropLast.dropLast.dropLast.dropLast.dropLast else t0
    if text ≠ [] ∧ text.all (fun c => ('a' ≤ c ∧ c ≤ 'z') ∨ ('0' ≤ c ∧ c ≤ '9') ∨ c = '-') then
      Except.ok text
    else Except.ok (strL "optimized-page")

/-- Model of `analyzeHtmlContent` in `geminiService.ts` as a function of the
API key and the model's response text. -/
def analyzeHtmlContent (apiKey resp : List Char) : Except (List Char) (List Char) :=
  if apiKey = [] then Except.error apiKeyMissingMsg
  else Except.ok (jsTrim resp)

/-- Backtracking search for the closing `\s*` run followed by the doubled
close bracket: try the whitespace count `n` first (greedy), then shorter. -/
def tryCloserFrom (cb : Char) (s : List Char) : Nat → Option Nat
  | 0 => if [cb, cb].isPrefixOf s then some 2 else none
  | n + 1 =>
    if [cb, cb].isPrefixOf (s.drop (n + 1)) then some (n + 1 + 2)
    else tryCloserFrom cb s n

/-- Attempt the literal key at whitespace offset `n`, then the closing run. -/
def tokTryAt (cb : Char) (key rest : List Char) (n : Nat) : Option Nat :=
  if key.isPrefixOf (rest.drop n) then
    let afterKey := (rest.drop n).drop key.length
    (tryCloserFrom cb afterKey (wsRunLen afterKey)).map (fun m => n + key.length + m)
  else none

/-- Backtracking search for the opening `\s*` run followed by the key:
greedy, so larger whitespace counts are tried first. -/
def tokSearch (cb : Char) (key rest : List Char) : Nat → Option Nat
  | 0 => tokTryAt cb key rest 0
  | n + 1 =>
    match tokTryAt cb key rest (n + 1) with
    | some t => some t
    | none => tokSearch cb key rest n

/-- Length of the match of the anchored regex `oo\s*key\s*cc` (the compiled
form of the placeholder patterns in `substituteAllPlaceholders`) at the head
of `s`, with full backtracking semantics; `none` when there is no match. -/
def matchTokLen (ob cb : Char) (key : List Char) (s : List Char) : Option Nat :=
  match s with
  | c1 :: c2 :: rest =>
    if c1 = ob ∧ c2 = ob then
      (tokSearch cb key rest (wsRunLen rest)).map (fun t => 2 + t)
    else none
  | _ => none

/-- Matcher for one placeholder-token pattern, producing the JavaScript
replacement-template expansion of the value at every match. -/
def tokMatcher (ob cb : Char) (key v : List Char) : JsMatcher := fun pre s =>
  (matchTokLen ob cb key s).map (fun n => (n, jsRepl [] (s.take n) pre (s.drop n) v))

/-- Model of one `result.replace(new RegExp(..., 'g'), value)` pass of
`substituteAllPlaceholders` for one bracket pair. -/
def replaceTok (ob cb : Char) (key v s : List Char) : List Char :=
  gsub (tokMatcher ob cb key v) s

/-- The two replacement passes `utils.ts` runs for each placeholder key:
square brackets first, then braces. -/
def replaceBoth (key v s : List Char) : List Char :=
  replaceTok obraceCh cbraceCh key v (replaceTok '[' ']' key v s)

/-- One step of the link-placeholder loop of `substituteAllPlaceholders`:
look the target file id up in the id-keyed map and, when found, substitute
its current `newFileName`; otherwise leave the text unchanged. -/
def linkSubstStep (all : List HtmlFile) (s : List Char) (kv : List Char × List Char) :
    List Char :=
  match jsMapGet (all.map (fun f => (f.id, f))) kv.2 with
  | some targetFile => replaceBoth kv.1 targetFile.newFileName s
  | none => s

/-- Model of `substituteAllPlaceholders` in `utils.ts`: substitute every text
placeholder entry in order, then every assigned link placeholder entry. -/
def substituteAllPlaceholders (file : HtmlFile) (allHtmlFiles : List HtmlFile) :
    List Char :=
  (file.linkPlaceholders).foldl (linkSubstStep allHtmlFiles)
    ((file.placeholderValues).foldl (fun acc kv => replaceBoth kv.1 kv.2 acc) file.content)

/-- Specification-side description of one placeholder token: the doubled open
bracket, any whitespace, the name, any whitespace, the doubled close bracket. -/
def IsTokStr (ob cb : Char) (key t : List Char) : Prop :=
  ∃ w1 w2, (∀ c ∈ w1, jsWsChar c = true) ∧ (∀ c ∈ w2, jsWsChar c = true) ∧
    t = ob :: ob :: (w1 ++ key ++ w2 ++ [cb, cb])

/-- Specification-side occurrence of a placeholder token at index `i`. -/
def TokAt (ob cb : Char) (key s : List Char) (i : Nat) : Prop :=
  ∃ t u, IsTokStr ob cb key t ∧ s.drop i = t ++ u

/-- A placeholder name as the spec understands it: non-empty, without
whitespace and without any of the four bracket characters. -/
def WordKey (key : List Char) : Prop :=
  key ≠ [] ∧ ∀ c ∈ key, jsWsChar c = false ∧ c ≠ '[' ∧ c ≠ ']' ∧
    c ≠ obraceCh ∧ c ≠ cbraceCh

/-- Directory part of a path: everything up to and including the last slash
(model of `path.substring(0, path.lastIndexOf('/') + 1)`). -/
def dirOf (p : List Char) : List Char :=
  p.take (p.length - (p.reverse.takeWhile (fun c => ¬ c = '/')).length)

/-- Last path segment (model of `path.split('/').pop()`). -/
def lastSeg (p : List Char) : List Char :=
  (p.reverse.takeWhile (fun c => ¬ c = '/')).reverse

/-- Backslashes are treated as slashes by the browser URL parser for special
schemes (and `createPreviewUrl` additionally normalises them by hand). -/
def bsNorm (s : List Char) : List Char :=
  s.map (fun c => if c = '\\' then '/' else c)

/-- Everything before the query or fragment of a URL string. -/
def stripQF (p : List Char) : List Char :=
  p.takeWhile (fun c => ¬ (c = '?' ∨ c = '#'))

/-- Length of a leading URL scheme including the colon, zero when absent. -/
def schemeTailLen (p : List Char) : Nat :=
  match p with
  | c :: rest =>
    if c.isAlpha then
      let body := rest.takeWhile (fun d => d.isAlpha ∨ d.isDigit ∨ d = '+' ∨ d = '-' ∨ d = '.')
      match rest.drop body.length with
      | ':' :: _ => 1 + body.length + 1
      | _ => 0
    else 0
  | [] => 0

/-- Split a string at every slash. -/
def splitSlash : List Char → List (List Char)
  | [] => [[]]
  | '/' :: r => [] :: splitSlash r
  | c :: r =>
    match splitSlash r with
    | seg :: rest => (c :: seg) :: rest
    | [] => [[c]]

/-- RFC 3986 dot-segment removal on the segment list, keeping the trailing
slash produced by a final `.` or `..` segment. -/
def dotProcess : List (List Char) → List (List Char) → List (List Char)
  | stack, [] => stack
  | stack, [seg] =>
    if seg = strL "." then stack ++ [[]]
    else if seg = strL ".." then stack.dropLast ++ [[]]
    else stack ++ [seg]
  | stack, seg :: rest =>
    if seg = strL "." then dotProcess stack rest
    else if seg = strL ".." then dotProcess stack.dropLast rest
    else dotProcess (stack ++ [seg]) rest

/-- Dot-segment removal on a slash-rooted path string. -/
def removeDotSegments (p : List Char) : List Char :=
  match splitSlash p with
  | [] :: segs => '/' :: List.intercalate ['/'] (dotProcess [] segs)
  | _ => p

/-- Model of `new URL(p, "file:///" ++ dir).pathname`: scheme-absolute URLs
keep their own path, protocol-relative and absolute paths drop the base
directory, and relative paths are resolved against it; dot segments are
removed throughout. -/
def urlPathname (dir p : List Char) : List Char :=
  let p1 := bsNorm (stripQF p)
  let d1 := bsNorm dir
  if 0 < schemeTailLen p1 then
    let after := p1.drop (schemeTailLen p1)
    if ['/', '/'].isPrefixOf after then
      removeDotSegments ((after.drop 2).dropWhile (fun c => ¬ c = '/'))
    else after
  else if ['/', '/'].isPrefixOf p1 then
    removeDotSegments ((p1.drop 2).dropWhile (fun c => ¬ c = '/'))
  else if ['/'].isPrefixOf p1 then removeDotSegments p1
  else removeDotSegments ('/' :: (d1 ++ p1))

/-- Model of `new URL(p, "file:///" + dir).pathname.substring(1)` as used in
`handlePackageZip` and `createPreviewUrl`. -/
def resolveUrl (dir p : List Char) : List Char := (urlPathname dir p).drop 1

/-- Line-terminator characters excluded by the regex dot. -/
def nlChar (c : Char) : Bool :=
  c = '\n' || c = '\r' || c = Char.ofNat 8232 || c = Char.ofNat 8233

/-- Try the scan regex's closing run `\s*(?:\]\]|}})` at `s`: greedy on the
whitespace (longer counts first), preferring `]]` over the brace pair. -/
def scanCloserAt (s : List Char) : Option Nat :=
  if (strL "]]").isPrefixOf s then some 2
  else if [cbraceCh, cbraceCh].isPrefixOf s then some 2
  else none

/-- Backtracking search over the whitespace count of the closing run. -/
def scanTailFrom (s : List Char) : Nat → Option Nat
  | 0 => (scanCloserAt s).map (fun c => c)
  | n + 1 =>
    match scanCloserAt (s.drop (n + 1)) with
    | some c => some (n + 1 + c)
    | none => scanTailFrom s n

/-- Lazy search for the capture of `(.*?)` followed by the closing run:
capture lengths are tried in increasing order, and the dot refuses line
terminators. -/
def scanCapFrom (s : List Char) : Nat → Nat → Option (List Char × Nat)
  | fuel, k =>
    match scanTailFrom (s.drop k) (wsRunLen (s.drop k)) with
    | some m => some (s.take k, k + m)
    | none =>
      match fuel, s.drop k with
      | fuelLess + 1, c :: _ =>
        if nlChar c then none else scanCapFrom s fuelLess (k + 1)
      | _, _ => none

/-- Backtracking search over the whitespace count of the opening run of the
scan regex (greedy, longer counts first). -/
def scanBodyFrom (s : List Char) : Nat → Option (List Char × Nat)
  | 0 => scanCapFrom s s.length 0
  | n + 1 =>
    match scanCapFrom (s.drop (n + 1)) (s.drop (n + 1)).length 0 with
    | some (cap, m) => some (cap, n + 1 + m)
    | none => scanBodyFrom s n

/-- Match of the placeholder scan regex
`(?:\[\[|{{)\s*(.*?)\s*(?:\]\]|}})` at the head of `s`, returning the
capture and the total length consumed. -/
def scanTokAt (s : List Char) : Option (List Char × Nat) :=
  if (strL "[[").isPrefixOf s ∨ [obraceCh, obraceCh].isPrefixOf s then
    (scanBodyFrom (s.drop 2) (wsRunLen (s.drop 2))).map (fun cm => (cm.1, 2 + cm.2))
  else none

/-- Model of `content.matchAll(placeholderRegex)` returning the capture
groups in order: scan left to right, resuming after each match. -/
def scanAll : Nat → List Char → List (List Char)
  | _, [] => []
  | 0, _ :: _ => []
  | fuel + 1, c :: rest =>
    match scanTokAt (c :: rest) with
    | some (cap, m) => cap :: scanAll fuel ((c :: rest).drop m)
    | none => scanAll fuel rest

/-- Order-preserving first-occurrence deduplication (model of building a
JavaScript `Set` from a list and spreading it back). -/
def dedupFirst : List (List Char) → List (List Char) → List (List Char)
  | _, [] => []
  | seen, x :: r =>
    if x ∈ seen then dedupFirst seen r else x :: dedupFirst (seen ++ [x]) r

/-- The duplicate-free list of trimmed placeholder names scanned from an HTML
content (lines 148-150 of `App.tsx`). -/
def scanPlaceholders (content : List Char) : List (List Char) :=
  dedupFirst [] ((scanAll content.length content).map jsTrim)

/-- Test for the link-placeholder prefix `/^(link|url)_/i`. -/
def isLinkName (p : List Char) : Bool :=
  (strL "link_").isPrefixOf (asciiLower p) || (strL "url_").isPrefixOf (asciiLower p)

/-- Build the `HtmlFile` record `processFiles` creates for an uploaded HTML
file: scan and deduplicate the placeholder names, split them into text and
link names, and initialise both maps with empty values. -/
def mkHtmlEntry (f : SiteFile) : HtmlFile :=
  let allPlaceholders := scanPlaceholders f.content
  let textPlaceholders := allPlaceholders.filter (fun p => ¬ isLinkName p)
  let linkPlaceholderKeys := allPlaceholders.filter (fun p => isLinkName p)
  { id := f.id, path := f.path, name := f.name, content := f.content,
    type := f.type, objectUrl := f.objectUrl, isMain := false,
    newFileName := f.name, placeholders := textPlaceholders,
    placeholderValues := textPlaceholders.map (fun p => (p, [])),
    linkPlaceholders := linkPlaceholderKeys.map (fun p => (p, [])) }

/-- Model of the state change of `processFiles` for a batch of already-read
files: skip empty paths and ids already present, append the rest to `files`,
and append an `HtmlFile` entry for each new file of type `text/html`. -/
def ingestStep (st : ProjState) (batch : List SiteFile) : ProjState :=
  let existing := st.files.map (fun f => f.id)
  let newFiles := batch.filter (fun f => decide (¬ f.path = []) && decide (¬ f.id ∈ existing))
  let newHtml := (newFiles.filter (fun f => decide (f.type = strL "text/html"))).map mkHtmlEntry
  { st with files := st.files ++ newFiles, htmlFiles := st.htmlFiles ++ newHtml }

/-- Model of `setMainPage` in `App.tsx`: flag exactly the chosen id as main,
rename it to `index.html`, and give the previous main page its original name
back when it had been renamed to `index.html`. -/
def setMainPage (st : ProjState) (id : List Char) : ProjState :=
  let oldMain := st.htmlFiles.find? (fun f => f.isMain)
  { st with htmlFiles := st.htmlFiles.map (fun f =>
      let nfn :=
        if f.id = id then strL "index.html"
        else
          match oldMain with
          | some om =>
            if f.id = om.id then
              (if f.newFileName = strL "index.html" then f.name else f.newFileName)
            else f.newFileName
          | none => f.newFileName
      { f with isMain := decide (f.id = id), newFileName := nfn }) }

/-- Model of `handleUpdateFileName` in `App.tsx`. -/
def renameStep (st : ProjState) (id nm : List Char) : ProjState :=
  { st with htmlFiles := st.htmlFiles.map (fun f =>
      if f.id = id then { f with newFileName := nm } else f) }

/-- The state-changing operations of the application relevant to the
main-page invariant. -/
inductive ProjOp where
  | ingest (batch : List SiteFile)
  | setMain (id : List Char)
  | del (id : List Char)
  | rename (id : List Char) (nm : List Char)
deriving Repr

/-- Apply one operation to the project state. -/
def applyOp (st : ProjState) : ProjOp → ProjState
  | ProjOp.ingest batch => ingestStep st batch
  | ProjOp.setMain id => setMainPage st id
  | ProjOp.del id => handleDeleteFile st id
  | ProjOp.rename id nm => renameStep st id nm

/-- Run a sequence of operations from a starting state. -/
def runOps (st : ProjState) (ops : List ProjOp) : ProjState := ops.foldl applyOp st

/-- The empty initial project state. -/
def initState : ProjState := { files := [], htmlFiles := [], globalScripts := [] }

/-- An ingested batch is well formed when the browser delivered pairwise
distinct file identities (path plus modification time). -/
def WFOp : ProjOp → Prop
  | ProjOp.ingest batch => (batch.map (fun f => f.id)).Nodup
  | _ => True

/-- Number of HTML files flagged as main. -/
def mainCount (l : List HtmlFile) : Nat := (l.filter (fun f => f.isMain)).length

/-- Quote characters recognised by the attribute-rewrite regex. -/
def isQuoteCh (c : Char) : Bool := c = '"' || c = quoteCh

/-- Model of JavaScript `String.prototype.replace` with a string pattern:
replace only the first occurrence, expanding replacement-template escapes. -/
def replaceFirstT (s pat tmpl : List Char) : List Char :=
  match findSubIdx pat s with
  | some i =>
    s.take i ++ jsRepl [] pat (s.take i) (s.drop (i + pat.length)) tmpl ++
      s.drop (i + pat.length)
  | none => s

/-- Parse of the attribute-rewrite regex
`(href|src)=["'](?!https?:\/\/)([^"']+)["']` at the head of `s`, returning
the attribute name, the quotes and the captured value. -/
def attrParseAt (s : List Char) : Option (List Char × Char × List Char × Char) :=
  let aq : Option (List Char) :=
    if (strL "href").isPrefixOf s then some (strL "href")
    else if (strL "src").isPrefixOf s then some (strL "src")
    else none
  match aq with
  | some a =>
    match s.drop a.length with
    | e :: q :: rest =>
      if e = '=' ∧ isQuoteCh q then
        if (strL "http://").isPrefixOf rest ∨ (strL "https://").isPrefixOf rest then none
        else
          let p := rest.takeWhile (fun c => ¬ isQuoteCh c)
          if p = [] then none
          else
            match rest.drop p.length with
            | q2 :: _ => some (a, q, p, q2)
            | [] => none
      else none
    | _ => none
  | none => none

/-- The replacement callback of the link-rewrite pass in `handlePackageZip`:
resolve the value against the containing directory and look it up in the
path-keyed map; otherwise fall back to the value's last segment in the
name-keyed map, replacing its first occurrence in the value; otherwise
return the match unchanged. -/
def linkCallback (ps ns : List (List Char × List Char)) (dir a p matched : List Char) :
    List Char :=
  let fullPath := resolveUrl dir p
  match jsMapGet ps fullPath with
  | some newName => a ++ '=' :: '"' :: (dirOf p ++ newName) ++ ['"']
  | none =>
    let baseName := lastSeg p
    if baseName = [] then matched
    else
      match jsMapGet ns baseName with
      | some newName => a ++ '=' :: '"' :: replaceFirstT p baseName newName ++ ['"']
      | none => matched

/-- Matcher for the attribute-rewrite regex, applying the callback. -/
def attrMatcher (ps ns : List (List Char × List Char)) (dir : List Char) : JsMatcher :=
  fun _ s =>
    match attrParseAt s with
    | some (a, q, p, q2) =>
      some (a.length + 2 + p.length + 1,
        linkCallback ps ns dir a p (a ++ '=' :: q :: (p ++ [q2])))
    | none => none

/-- Model of the link-rewrite pass of `handlePackageZip` over one HTML
content string. -/
def rewriteLinks (files : List HtmlFile) (containingPath content : List Char) :
    List Char :=
  gsub
    (attrMatcher (files.map (fun f => (f.path, f.newFileName)))
      (files.map (fun f => (f.name, f.newFileName))) (dirOf containingPath))
    content

/-- The deployment instructions written into the archive's `README.md`
(`getDeploymentInstructions` in `utils.ts`). -/
def deploymentInstructions : List Char :=
  strL "\n### Ваш сайт готов!\n\nСкачанный ZIP-архив содержит все необходимые файлы для развертывания.\n\n---\n\n#### 🚀 Вариант 1: GitHub Pages (Самый простой)\n\n1.  Создайте новый публичный репозиторий на [GitHub](https://github.com/new). Назовите его `<ваш-юзернейм>.github.io`.\n2.  Распакуйте архив и загрузите **все файлы** из него в этот репозиторий.\n3.  Перейдите в настройки репозитория (`Settings` -> `Pages`).\n4.  В разделе \"Build and deployment\" выберите источник (`Source`) `Deploy from a branch`.\n5.  Выберите ветку `main` (или `master`) и папку `/ (root)`. Сохраните.\n6.  Через несколько минут ваш сайт будет доступен по адресу `https://<ваш-юзернейм>.github.io`.\n\n---\n\n#### 🚀 Вариант 2: Vercel\n\n1.  Зарегистрируйтесь или войдите на [Vercel](https://vercel.com) с помощью вашего GitHub аккаунта.\n2.  Создайте новый репозиторий на GitHub и загрузите в него все файлы из распакованного архива.\n3.  На дашборде Vercel нажмите `Add New...` -> `Project`.\n4.  Импортируйте репозиторий, который вы только что создали.\n5.  Vercel автоматически определит, что это статичный сайт. Просто нажмите `Deploy`.\n6.  Ваш сайт будет развернут через минуту!\n"

/-- Insertion of the trimmed global scripts before the first `</head>` when
they are non-blank (`handlePackageZip`, line 377). -/
def insertGlobalScripts (globalScripts content : List Char) : List Char :=
  if jsTrim globalScripts = [] then content
  else replaceFirstT content (strL "</head>") (jsTrim globalScripts ++ '\n' :: strL "</head>")

/-- The content `handlePackageZip` writes for one HTML file: placeholder
substitution, then link rewriting, then the global-script insertion. -/
def packagedContent (st : ProjState) (f : HtmlFile) : List Char :=
  insertGlobalScripts st.globalScripts
    (rewriteLinks st.htmlFiles f.path (substituteAllPlaceholders f st.htmlFiles))

/-- The sequence of `zip.file` writes performed by `handlePackageZip`, in
order: the processed HTML files at their directory joined with the new
filename, the raw non-HTML files at their original paths, then `README.md`
and `vercel.json`. -/
def zipWrites (st : ProjState) : List (List Char × List Char) :=
  (st.htmlFiles.map (fun f => (dirOf f.path ++ f.newFileName, packagedContent st f)))
    ++ ((st.files.filter (fun f => decide (¬ f.type = strL "text/html"))).map
        (fun f => (f.path, f.content)))
    ++ [(strL "README.md", deploymentInstructions), (strL "vercel.json", strL "\x7b\x7d")]

/-- The final archive content at a path: JSZip keeps the last write. -/
def zipGet (st : ProjState) (p : List Char) : Option (List Char) :=
  ((zipWrites st).reverse.find? (fun kv => decide (kv.1 = p))).map (fun kv => kv.2)

/-- The property C5 asserts of the archive, for one project state: a path
holds a content exactly when the claim's four entry groups say so. -/
def ZipClaimAt (st : ProjState) : Prop :=
  ∀ p c, zipGet st p = some c ↔
    ((∃ f ∈ st.htmlFiles, p = dirOf f.path ++ f.newFileName ∧ c = packagedContent st f) ∨
     (∃ f ∈ st.files, ¬ f.type = strL "text/html" ∧ p = f.path ∧ c = f.content) ∨
     (p = strL "README.md" ∧ c = deploymentInstructions) ∨
     (p = strL "vercel.json" ∧ c = strL "\x7b\x7d"))

/-- Matcher for the preview regex `(["'])ref(["'])` built with
`escapeRegExp`, so the reference matches literally; the replacement template
is `$1` ++ objectUrl ++ `$2`. -/
def quoteRefMatcher (ref url : List Char) : JsMatcher := fun pre s =>
  match s with
  | q :: rest =>
    if isQuoteCh q ∧ ref.isPrefixOf rest then
      match rest.drop ref.length with
      | q2 :: after =>
        if isQuoteCh q2 then
          some (ref.length + 2,
            jsRepl [[q], [q2]] (q :: (ref ++ [q2])) pre after
              (strL "$1" ++ url ++ strL "$2"))
        else none
      | [] => none
    else none
  | [] => none

/-- One iteration of `createPreviewUrl`'s element loop for one reference
string: skip empty, `http`- and `data:`-references, otherwise resolve the
reference and, when it names an uploaded asset with an object URL, replace
its quote-delimited occurrences. -/
def previewStep (fileMap : List (List Char × SiteFile)) (basePath : List Char)
    (content ref : List Char) : List Char :=
  if ref = [] ∨ (strL "http").isPrefixOf ref ∨ (strL "data:").isPrefixOf ref then content
  else
    match jsMapGet fileMap (resolveUrl basePath ref) with
    | some assetFile =>
      match assetFile.objectUrl with
      | some url => gsub (quoteRefMatcher ref url) content
      | none => content
    | none => content

/-- Model of the content transformation of `createPreviewUrl` in `utils.ts`,
with the references extracted by the DOM query supplied as a list. -/
def createPreviewContent (fileMap : List (List Char × SiteFile)) (htmlPath : List Char)
    (refs : List (List Char)) (content : List Char) : List Char :=
  refs.foldl (previewStep fileMap (dirOf htmlPath)) content

/-- Scan for the first match of `/```html\s*([\s\S]*?)```/` and return its
capture: at each position where the literal fence opener occurs, take the
greedy whitespace run and then the shortest text ending at a closing triple
backtick. -/
def fenceGo : List Char → Option (List Char)
  | [] => none
  | c :: rest =>
    if ([backtickCh, backtickCh, backtickCh] ++ strL "html").isPrefixOf (c :: rest) then
      let after := (c :: rest).drop 7
      let n := wsRunLen after
      match findSubIdx [backtickCh, backtickCh, backtickCh] (after.drop n) with
      | some q => some ((after.drop n).take q)
      | none => fenceGo rest
    else fenceGo rest

/-- Model of JavaScript `String.prototype.substring`, which clamps and swaps
its arguments. -/
def jsSubstring (s : List Char) (a b : Nat) : List Char :=
  let aa := min a s.length
  let bb := min b s.length
  (s.take (max aa bb)).drop (min aa bb)

/-- The response clean-up of `applyAnalysisFixes`: trim, then prefer the
fenced `html` block's capture — but only when that capture is non-empty,
since the source guards with `htmlMatch && htmlMatch[1]` and an empty
capture string is falsy — else strip a plain triple-backtick wrapper. -/
def cleanFixedHtml (resp : List Char) : List Char :=
  let t := jsTrim resp
  match fenceGo t with
  | some (c :: cs) => c :: cs
  | _ =>
    if ([backtickCh, backtickCh, backtickCh]).isPrefixOf t ∧
        ([backtickCh, backtickCh, backtickCh]).isSuffixOf t then
      jsTrim (jsSubstring t 3 (t.length - 3))
    else t

/-- Error message surfaced when `applyAnalysisFixes` fails on a malformed
response (the internal doctype error is re-thrown by the catch block as the
generic API failure message). -/
def applyFixesFailMsg : List Char :=
  strL "Не удалось применить исправления из-за ошибки API."

/-- Model of `applyAnalysisFixes` in `geminiService.ts` as a function of the
API key and the model's response text: an empty key fails before any
request; otherwise the cleaned response is accepted only when it contains
`<!doctype html>` case-insensitively. -/
def applyAnalysisFixes (apiKey resp : List Char) : Except (List Char) (List Char) :=
  if apiKey = [] then Except.error apiKeyMissingMsg
  else
    let fixedHtml := cleanFixedHtml resp
    if containsSub (asciiLower fixedHtml) (strL "<!doctype html>") then Except.ok fixedHtml
    else Except.error applyFixesFailMsg

/-- Model of `handleOptimizeNames` in `App.tsx` with the per-file API
outcomes supplied as a function: the main page is kept, every other file
gets the suggested name plus `.html`, and the new list is committed only
when every call succeeded; any failure leaves the state untouched and is
surfaced as a notification (the second component); this is the per-file
fan-out of `Promise.all`, whose state outcome is order-independent. -/
def optimizeEach (resOf : HtmlFile → Except (List Char) (List Char)) :
    List HtmlFile → Except (List Char) (List HtmlFile)
  | [] => Except.ok []
  | f :: rest =>
    match (if f.isMain then Except.ok f
        else (resOf f).map (fun newName => { f with newFileName := newName ++ strL ".html" })) with
    | Except.error e => Except.error e
    | Except.ok f2 =>
      match optimizeEach resOf rest with
      | Except.error e => Except.error e
      | Except.ok rest2 => Except.ok (f2 :: rest2)

/-- Model of `handleOptimizeNames` continued: the new list is committed only
when every per-file outcome succeeded. -/
def handleOptimizeNames (resOf : HtmlFile → Except (List Char) (List Char))
    (apiKey : List Char) (st : ProjState) : ProjState × Option (List Char) :=
  if apiKey = [] then
    (st, some (strL "Пожалуйста, введите ваш API ключ в настройках."))
  else
    match optimizeEach resOf st.htmlFiles with
    | Except.ok optimizedFiles =>
      ({ st with htmlFiles := optimizedFiles },
        some (strL "Имена файлов успешно оптимизированы!"))
    | Except.error e => (st, some e)

/-- Model of `escapeRegExp` in `utils.ts`: prefix every regex metacharacter
with a backslash. -/
def escapeRegExp (s : List Char) : List Char :=
  s.flatMap (fun c =>
    if c = '.' ∨ c = '*' ∨ c = '+' ∨ c = '?' ∨ c = '^' ∨ c = '$' ∨ c = obraceCh ∨
        c = cbraceCh ∨ c = '(' ∨ c = ')' ∨ c = '|' ∨ c = '[' ∨ c = ']' ∨ c = '\\' then
      ['\\', c]
    else [c])

/-- Global single-character replacement (the three HTML-escaping passes of
`applyInlineFormatting`). -/
def escCharWith (target : Char) (repl : List Char) (s : List Char) : List Char :=
  s.flatMap (fun c => if c = target then repl else [c])

/-- Lazy search for the closing delimiter of an inline markdown span,
refusing line terminators on the way. -/
def seekClose (close s : List Char) : Nat → Nat → Option Nat
  | 0, k => if close.isPrefixOf (s.drop k) then some k else none
  | fuel + 1, k =>
    if close.isPrefixOf (s.drop k) then some k
    else
      match s.drop k with
      | c :: _ => if nlChar c then none else seekClose close s fuel (k + 1)
      | [] => none

/-- Matcher for the bold-span regex `/\*\*(.*?)\*\*/g`. -/
def strongMatcher : JsMatcher := fun pre s =>
  if (strL "**").isPrefixOf s then
    match seekClose (strL "**") (s.drop 2) (s.drop 2).length 0 with
    | some k =>
      some (2 + k + 2,
        jsRepl [(s.drop 2).take k] (s.take (2 + k + 2)) pre (s.drop (2 + k + 2))
          (strL "<strong>$1</strong>"))
    | none => none
  else none

/-- Matcher for the inline-code regex built from a backtick, a non-empty run
of non-backticks and a closing backtick. -/
def codeSpanMatcher : JsMatcher := fun pre s =>
  match s with
  | c :: rest =>
    if c = backtickCh then
      let run := rest.takeWhile (fun d => ¬ d = backtickCh)
      if run = [] then none
      else
        match rest.drop run.length with
        | d :: _ =>
          if d = backtickCh then
            some (1 + run.length + 1,
              jsRepl [run] (s.take (1 + run.length + 1)) pre (s.drop (1 + run.length + 1))
                (strL "<code class=\"bg-gray-700 text-sm rounded-md px-1.5 py-0.5 font-mono text-cyan-300\">$1</code>"))
          else none
        | [] => none
    else none
  | [] => none

/-- Model of `applyInlineFormatting` inside `parseMarkdown`: escape `&`, `<`
and `>`, then expand bold and inline-code spans. -/
def applyInlineFormatting (text : List Char) : List Char :=
  gsub codeSpanMatcher
    (gsub strongMatcher
      (escCharWith '>' (strL "&gt;")
        (escCharWith '<' (strL "&lt;")
          (escCharWith '&' (strL "&amp;") text))))

/-- Split a string at every newline (model of `split('\n')`). -/
def splitNl : List Char → List (List Char)
  | [] => [[]]
  | '\n' :: r => [] :: splitNl r
  | c :: r =>
    match splitNl r with
    | seg :: rest => (c :: seg) :: rest
    | [] => [[c]]

/-- The mutable state of `parseMarkdown`'s line loop. -/
structure MdState where
  html : List Char
  inList : Bool
  inCode : Bool
  codeLang : List Char
  codeContent : List Char
deriving Repr

/-- Close an open list if necessary. -/
def mdCloseList (st : MdState) : MdState :=
  if st.inList then { st with html := st.html ++ strL "</ul>\n", inList := false } else st

/-- One iteration of `parseMarkdown`'s loop over the lines. Note that the
fenced code block's content goes through `escapeRegExp` (regex escaping),
exactly as the source does. -/
def mdLine (st : MdState) (line : List Char) : MdState :=
  if ([backtickCh, backtickCh, backtickCh]).isPrefixOf (jsTrim line) then
    if st.inCode then
      { st with
        html := st.html ++ strL "<pre class=\"bg-gray-900 rounded-md p-3 my-2 overflow-x-auto\"><code class=\"language-"
          ++ st.codeLang ++ strL " text-sm\">" ++ jsTrim (escapeRegExp st.codeContent)
          ++ strL "</code></pre>\n",
        inCode := false, codeContent := [] }
    else
      let st1 := mdCloseList st
      { st1 with inCode := true, codeLang := (jsTrim line).drop 3 }
  else if st.inCode then
    { st with codeContent := st.codeContent ++ line ++ ['\n'] }
  else
    let trimmedLine := jsTrim line
    if (strL "#### ").isPrefixOf trimmedLine then
      let st1 := mdCloseList st
      { st1 with html := st1.html ++ strL "<h4 class=\"text-md font-semibold text-gray-100 mt-3 mb-1\">"
          ++ applyInlineFormatting (trimmedLine.drop 5) ++ strL "</h4>\n" }
    else if (strL "### ").isPrefixOf trimmedLine then
      let st1 := mdCloseList st
      { st1 with html := st1.html ++ strL "<h3 class=\"text-lg font-semibold text-white mt-4 mb-2\">"
          ++ applyInlineFormatting (trimmedLine.drop 4) ++ strL "</h3>\n" }
    else if (strL "* ").isPrefixOf trimmedLine ∨ (strL "- ").isPrefixOf trimmedLine then
      let st1 :=
        if ¬ st.inList then
          { st with html := st.html ++ strL "<ul class=\"list-disc list-inside space-y-1\">\n", inList := true }
        else st
      { st1 with html := st1.html ++ strL "  <li>" ++ applyInlineFormatting (trimmedLine.drop 2) ++ strL "</li>\n" }
    else
      let st1 := mdCloseList st
      if trimmedLine = [] then st1
      else { st1 with html := st1.html ++ strL "<p>" ++ applyInlineFormatting trimmedLine ++ strL "</p>\n" }

/-- Model of `parseMarkdown` in `utils.ts`. -/
def parseMarkdown (markdownText : List Char) : List Char :=
  if markdownText = [] then []
  else
    let fin := (splitNl markdownText).foldl mdLine
      { html := [], inList := false, inCode := false, codeLang := [], codeContent := [] }
    if fin.inList then fin.html ++ strL "</ul>\n" else fin.html

/-- Specification-side occurrence of a rewriteable attribute at index `i`:
an `href` or `src` attribute with a quoted, quote-free, non-empty value not
protected by the `https?://` lookahead. -/
def AttrTokAt (s : List Char) (i : Nat) : Prop :=
  ∃ a q p q2 u, (a = strL "href" ∨ a = strL "src") ∧ isQuoteCh q = true ∧
    isQuoteCh q2 = true ∧ p ≠ [] ∧ (∀ c ∈ p, isQuoteCh c = false) ∧
    ¬ (strL "http://").isPrefixOf (p ++ q2 :: u) ∧
    ¬ (strL "https://").isPrefixOf (p ++ q2 :: u) ∧
    s.drop i = a ++ '=' :: q :: (p ++ q2 :: u)

/-- Specification-side quote-delimited occurrence of a reference at index `i`. -/
def QuoteOccAt (ref s : List Char) (i : Nat) : Prop :=
  ∃ q q2 u, isQuoteCh q = true ∧ isQuoteCh q2 = true ∧
    s.drop i = q :: (ref ++ q2 :: u)

/-- The behaviour C1 ascribes to one replacement pass for one bracket pair:
token-free text is left unchanged, the leftmost token occurrence is replaced
by the value with scanning continuing after it, and token occurrences never
overlap (so the decomposition reaches every occurrence). -/
def TokPassSpec (ob cb : Char) (key v : List Char) : Prop :=
  (∀ s, (∀ i, ¬ TokAt ob cb key s i) → replaceTok ob cb key v s = s) ∧
  (∀ u t r, IsTokStr ob cb key t →
    (∀ i, i < u.length → ¬ TokAt ob cb key (u ++ (t ++ r)) i) →
    replaceTok ob cb key v (u ++ (t ++ r)) = u ++ v ++ replaceTok ob cb key v r) ∧
  (∀ s t u i j, IsTokStr ob cb key t → s.drop i = t ++ u →
    TokAt ob cb key s j → i < j → i + t.length ≤ j)

/-- The full property claimed by C1 for a name and an inserted string: both
token forms are substituted in every pass, link placeholders with an
assigned target get the target's `newFileName` while unassigned ones are
skipped, and the packaged archive entry of every HTML file is built from the
`substituteAllPlaceholders` output. -/
def C1Spec (key v : List Char) : Prop :=
  TokPassSpec '[' ']' key v ∧ TokPassSpec obraceCh cbraceCh key v ∧
  (∀ all s k2 tid, jsMapGet (all.map (fun f => (f.id, f))) tid = none →
    linkSubstStep all s (k2, tid) = s) ∧
  (∀ all s k2 tid tf, jsMapGet (all.map (fun f => (f.id, f))) tid = some tf →
    linkSubstStep all s (k2, tid) = replaceBoth k2 tf.newFileName s) ∧
  (∀ st f, f ∈ st.htmlFiles →
    (dirOf f.path ++ f.newFileName,
      insertGlobalScripts st.globalScripts
        (rewriteLinks st.htmlFiles f.path (substituteAllPlaceholders f st.htmlFiles))) ∈ zipWrites st)

/-- The property claimed by C2: after any operation sequence from the empty
state at most one HTML file is flagged main; `setMainPage` flags exactly the
chosen id; freshly ingested files are never flagged. -/
def C2Spec (ops : List ProjOp) : Prop :=
  mainCount (runOps initState ops).htmlFiles ≤ 1 ∧
  (∀ st id f, f ∈ (setMainPage st id).htmlFiles → f.isMain = decide (f.id = id)) ∧
  (∀ st batch f, f ∈ (ingestStep st batch).htmlFiles → f ∈ st.htmlFiles ∨ f.isMain = false)

/-- The property claimed by C4, as amended: `http(s)://` values are never
matched; a value resolving to an uploaded HTML file's path is rewritten with
the directory preserved and the filename replaced; a value matching neither
map is left unchanged; the basename fallback replaces the first occurrence
of the basename inside the value; non-matching content is unchanged and the
leftmost attribute occurrence is rewritten through the callback. -/
def C4Spec : Prop :=
  (∀ ps ns dir pre a q p rest, (a = strL "href" ∨ a = strL "src") → isQuoteCh q = true →
    ((strL "http://").isPrefixOf p = true ∨ (strL "https://").isPrefixOf p = true) →
    attrMatcher ps ns dir pre (a ++ '=' :: q :: (p ++ rest)) = none) ∧
  (∀ ps ns dir a p matched newName, jsMapGet ps (resolveUrl dir p) = some newName →
    linkCallback ps ns dir a p matched = a ++ '=' :: '"' :: (dirOf p ++ newName) ++ ['"']) ∧
  (∀ ps ns dir a p matched, jsMapGet ps (resolveUrl dir p) = none →
    (lastSeg p = [] ∨ jsMapGet ns (lastSeg p) = none) →
    linkCallback ps ns dir a p matched = matched) ∧
  (∀ ps ns dir a p matched newName i, jsMapGet ps (resolveUrl dir p) = none →
    lastSeg p ≠ [] → jsMapGet ns (lastSeg p) = some newName → DollarFree newName →
    findSubIdx (lastSeg p) p = some i →
    linkCallback ps ns dir a p matched =
      a ++ '=' :: '"' :: (p.take i ++ newName ++ p.drop (i + (lastSeg p).length)) ++ ['"']) ∧
  (∀ files path content, (∀ i, ¬ AttrTokAt content i) →
    rewriteLinks files path content = content) ∧
  (∀ files path u a q p q2 r, (a = strL "href" ∨ a = strL "src") → isQuoteCh q = true →
    isQuoteCh q2 = true → p ≠ [] → (∀ c ∈ p, isQuoteCh c = false) →
    (strL "http://").isPrefixOf (p ++ q2 :: r) = false →
    (strL "https://").isPrefixOf (p ++ q2 :: r) = false →
    (∀ i, i < u.length → ¬ AttrTokAt (u ++ (a ++ '=' :: q :: (p ++ q2 :: r))) i) →
    rewriteLinks files path (u ++ (a ++ '=' :: q :: (p ++ q2 :: r))) =
      u ++ linkCallback (files.map (fun f => (f.path, f.newFileName)))
          (files.map (fun f => (f.name, f.newFileName))) (dirOf path) a p
          (a ++ '=' :: q :: (p ++ [q2])) ++
        rewriteLinks files path r)

/-- The property claimed by C8, as amended: `http`/`data:` references and
references resolving to no asset (or one without an object URL) leave the
content unchanged; for an assigned reference, content without quote-delimited
occurrences is unchanged, and the leftmost occurrence is replaced by the
object URL between the original quotes, with scanning resuming after the
closing quote. -/
def C8Spec : Prop :=
  (∀ fm bp content ref,
    ((strL "http").isPrefixOf ref = true ∨ (strL "data:").isPrefixOf ref = true) →
    previewStep fm bp content ref = content) ∧
  (∀ fm bp content ref,
    (jsMapGet fm (resolveUrl bp ref) = none ∨
      ∃ af, jsMapGet fm (resolveUrl bp ref) = some af ∧ af.objectUrl = none) →
    previewStep fm bp content ref = content) ∧
  (∀ ref url content, (∀ i, ¬ QuoteOccAt ref content i) →
    gsub (quoteRefMatcher ref url) content = content) ∧
  (∀ ref url u q q2 r, DollarFree url → isQuoteCh q = true → isQuoteCh q2 = true →
    (∀ i, i < u.length → ¬ QuoteOccAt ref (u ++ (q :: (ref ++ q2 :: r))) i) →
    gsub (quoteRefMatcher ref url) (u ++ (q :: (ref ++ q2 :: r))) =
      u ++ (q :: (url ++ [q2])) ++ gsub (quoteRefMatcher ref url) r)

/-- The property claimed by C6: every service entry point fails on an empty
API key independently of any response; `applyAnalysisFixes` returns exactly
the cleaned response and only when it contains the doctype marker
case-insensitively, failing otherwise; and the clean-up strips a fenced
`html` wrapper. -/
def C6Spec : Prop :=
  (∀ resp, applyAnalysisFixes [] resp = Except.error apiKeyMissingMsg ∧
    optimizeFileName [] resp = Except.error apiKeyMissingMsg ∧
    analyzeHtmlContent [] resp = Except.error apiKeyMissingMsg) ∧
  (∀ apiKey resp out, applyAnalysisFixes apiKey resp = Except.ok out →
    out = cleanFixedHtml resp ∧
    containsSub (asciiLower out) (strL "<!doctype html>") = true ∧ apiKey ≠ []) ∧
  (∀ apiKey resp, apiKey ≠ [] →
    containsSub (asciiLower (cleanFixedHtml resp)) (strL "<!doctype html>") = false →
    applyAnalysisFixes apiKey resp = Except.error applyFixesFailMsg) ∧
  (∀ b0 body2, jsWsChar b0 = false →
    (∀ i, i < (b0 :: body2).length →
      ([backtickCh, backtickCh, backtickCh]).isPrefixOf
        (((b0 :: body2) ++ [backtickCh, backtickCh, backtickCh]).drop i) = false) →
    cleanFixedHtml (strL "```html " ++ ((b0 :: body2) ++ [backtickCh, backtickCh, backtickCh])) =
      b0 :: body2)

/-- The property claimed by C7 for one state and one failing file: the whole
state is left untouched and the failure is surfaced as a notification. -/
def C7Spec (resOf : HtmlFile → Except (List Char) (List Char))
    (apiKey : List Char) (st : ProjState) : Prop :=
  (handleOptimizeNames resOf apiKey st).1 = st ∧
  ((handleOptimizeNames resOf apiKey st).2).isSome = true

/-- The property claimed by C9 for one state and one deleted id. -/
def C9Spec (st : ProjState) (id : List Char) : Prop :=
  (∀ f ∈ (handleDeleteFile st id).files, ¬ f.id = id) ∧
  (∀ hf ∈ (handleDeleteFile st id).htmlFiles, ¬ hf.id = id) ∧
  (handleDeleteFile st id).files = st.files.filter (fun f => decide (¬ f.id = id)) ∧
  (∀ hf ∈ (handleDeleteFile st id).htmlFiles,
    (∀ kv ∈ hf.linkPlaceholders, ¬ kv.2 = id) ∧
    ∃ hf0 ∈ st.htmlFiles, hf0.id = hf.id ∧ hf.path = hf0.path ∧ hf.name = hf0.name ∧
      hf.content = hf0.content ∧ hf.type = hf0.type ∧ hf.objectUrl = hf0.objectUrl ∧
      hf.isMain = hf0.isMain ∧ hf.newFileName = hf0.newFileName ∧
      hf.placeholders = hf0.placeholders ∧ hf.placeholderValues = hf0.placeholderValues ∧
      hf.linkPlaceholders = hf0.linkPlaceholders.map
        (fun kv => (kv.1, if kv.2 = id then [] else kv.2)))


/-- Concrete example file: an uploaded HTML page `a.html`. -/
def exSiteA : SiteFile :=
  { id := strL "a.html-1", path := strL "a.html", name := strL "a.html",
    content := strL "<p>a</p>", type := strL "text/html", objectUrl := none }

/-- Concrete example file: an uploaded HTML page `b.html`. -/
def exSiteB : SiteFile :=
  { id := strL "b.html-1", path := strL "b.html", name := strL "b.html",
    content := strL "x", type := strL "text/html", objectUrl := none }

/-- Concrete example HTML record for `b.html`, holding a link placeholder
assigned to `a.html`. -/
def exHtmlB : HtmlFile :=
  { id := strL "b.html-1", path := strL "b.html", name := strL "b.html",
    content := strL "x", type := strL "text/html", objectUrl := none,
    isMain := false, newFileName := strL "b.html", placeholders := [],
    placeholderValues := [], linkPlaceholders := [(strL "link_a", strL "a.html-1")] }

/-- Concrete example state for exercising deletion. -/
def exState9 : ProjState :=
  { files := [exSiteA, exSiteB], htmlFiles := [exHtmlB], globalScripts := [] }

/-- Concrete example file: an uploaded non-HTML `README.md`. -/
def exReadme : SiteFile :=
  { id := strL "README.md-1", path := strL "README.md", name := strL "README.md",
    content := strL "X", type := strL "text/plain", objectUrl := none }

/-- Concrete example state containing only the uploaded `README.md`. -/
def exState5 : ProjState :=
  { files := [exReadme], htmlFiles := [], globalScripts := [] }

/-- Concrete example HTML record renamed from `a.html` to `b.html`. -/
def exHtmlA4 : HtmlFile :=
  { id := strL "a.html-1", path := strL "a.html", name := strL "a.html",
    content := strL "<p>a</p>", type := strL "text/html", objectUrl := none,
    isMain := false, newFileName := strL "b.html", placeholders := [],
    placeholderValues := [], linkPlaceholders := [] }

/-- Concrete example asset with an object URL, for the preview rewrite. -/
def exAsset8 : SiteFile :=
  { id := strL "a-1", path := strL "a", name := strL "a",
    content := strL "", type := strL "text/css", objectUrl := some (strL "URL") }

/-- Concrete example HTML record used for the optimize-names witness. -/
def exHtmlC7 : HtmlFile :=
  { id := strL "c.html-1", path := strL "c.html", name := strL "c.html",
    content := strL "y", type := strL "text/html", objectUrl := none,
    isMain := false, newFileName := strL "c.html", placeholders := [],
    placeholderValues := [], linkPlaceholders := [] }

/-- Concrete example state for the optimize-names witness. -/
def exState7 : ProjState :=
  { files := [], htmlFiles := [exHtmlC7], globalScripts := [] }

/-- A per-file API outcome that always fails (a rejected network call). -/
def resOfFail : HtmlFile → Except (List Char) (List Char) :=
  fun _ => Except.error (strL "network error")

/-- Concrete example batch and operation sequence for the main-flag witness. -/
def exOps2 : List ProjOp :=
  [ProjOp.ingest [exSiteA, exSiteB], ProjOp.setMain (strL "a.html-1"),
    ProjOp.rename (strL "b.html-1") (strL "renamed.html"),
    ProjOp.setMain (strL "b.html-1"), ProjOp.del (strL "a.html-1")]


theorem gsubF_nil (m : JsMatcher) (fuel : Nat) (pre : List Char) :
    gsubF m fuel pre [] = [] := by
  cases fuel <;> rfl

theorem gsubF_fuel_eq (m : JsMatcher) : ∀ f1 f2 pre s, s.length ≤ f1 → s.length ≤ f2 →
    gsubF m f1 pre s = gsubF m f2 pre s := by
  intro f1
  induction f1 with
  | zero =>
    intro f2 pre s h1 _
    have hs : s = [] := List.eq_nil_of_length_eq_zero (Nat.le_zero.mp h1)
    subst hs
    rw [gsubF_nil, gsubF_nil]
  | succ k ih =>
    intro f2 pre s h1 h2
    cases s with
    | nil => rw [gsubF_nil, gsubF_nil]
    | cons c rest =>
      cases f2 with
      | zero => simp at h2
      | succ k2 =>
        simp only [gsubF]
        rcases hm : m pre (c :: rest) with _ | ⟨n, repl⟩
        · simp only [hm]
          have hl : rest.length ≤ k := by simpa using h1
          have hl2 : rest.length ≤ k2 := by simpa using h2
          rw [ih k2 (pre ++ [c]) rest hl hl2]
        · cases n with
          | zero =>
            simp only [hm]
            have hl : rest.length ≤ k := by simpa using h1
            have hl2 : rest.length ≤ k2 := by simpa using h2
            rw [ih k2 (pre ++ [c]) rest hl hl2]
          | succ n =>
            simp only [hm]
            have hl : (rest.drop n).length ≤ k := by
              have := List.length_drop n rest
              have hr : rest.length ≤ k := by simpa using h1
              omega
            have hl2 : (rest.drop n).length ≤ k2 := by
              have := List.length_drop n rest
              have hr : rest.length ≤ k2 := by simpa using h2
              omega
            rw [ih k2 (pre ++ (c :: rest).take (n + 1)) (rest.drop n) hl hl2]

theorem gsubF_no_match (m : JsMatcher) : ∀ fuel pre s, s.length ≤ fuel →
    (∀ a b, s = a ++ b → b ≠ [] → m (pre ++ a) b = none) →
    gsubF m fuel pre s = s := by
  intro fuel
  induction fuel with
  | zero =>
    intro pre s h1 _
    have hs : s = [] := List.eq_nil_of_length_eq_zero (Nat.le_zero.mp h1)
    subst hs
    exact gsubF_nil m 0 pre
  | succ k ih =>
    intro pre s h1 hnone
    cases s with
    | nil => exact gsubF_nil m (k + 1) pre
    | cons c rest =>
      have h0 : m (pre ++ []) (c :: rest) = none := hnone [] (c :: rest) rfl (by simp)
      rw [List.append_nil] at h0
      simp only [gsubF, h0]
      have hrec : gsubF m k (pre ++ [c]) rest = rest := by
        apply ih
        · simpa using h1
        · intro a b hab hb
          have := hnone (c :: a) b (by rw [hab]; rfl) hb
          simpa [List.append_assoc] using this
      rw [hrec]

theorem gsubF_break (m : JsMatcher) : ∀ u fuel pre t n repl,
    (u ++ t).length ≤ fuel → t ≠ [] →
    (∀ a b, u ++ t = a ++ b → a.length < u.length → b ≠ [] → m (pre ++ a) b = none) →
    m (pre ++ u) t = some (n + 1, repl) →
    gsubF m fuel pre (u ++ t) =
      u ++ repl ++ gsubF m ((t.drop (n + 1)).length) (pre ++ u ++ t.take (n + 1)) (t.drop (n + 1)) := by
  intro u
  induction u with
  | nil =>
    intro fuel pre t n repl hf ht hnone hm
    cases t with
    | nil => exact absurd rfl ht
    | cons c rest =>
      cases fuel with
      | zero => simp at hf
      | succ k =>
        rw [List.append_nil] at hm
        simp only [List.nil_append] at hf ⊢
        simp only [gsubF, hm]
        have hd : (c :: rest).drop (n + 1) = rest.drop n := by simp
        have hfe : gsubF m k (pre ++ (c :: rest).take (n + 1)) (rest.drop n) =
            gsubF m ((c :: rest).drop (n + 1)).length (pre ++ (c :: rest).take (n + 1)) ((c :: rest).drop (n + 1)) := by
          rw [hd]
          apply gsubF_fuel_eq
          · have h1 : rest.length ≤ k := by simpa using hf
            have := List.length_drop n rest
            omega
          · exact Nat.le_refl _
        rw [hfe]
        simp
  | cons c u2 ih =>
    intro fuel pre t n repl hf ht hnone hm
    cases fuel with
    | zero => simp at hf
    | succ k =>
      have h0 : m (pre ++ []) (c :: (u2 ++ t)) = none := by
        have := hnone [] (c :: (u2 ++ t)) (by simp) (by simp) (by simp)
        simpa using this
      rw [List.append_nil] at h0
      show gsubF m (k + 1) pre (c :: (u2 ++ t)) = _
      simp only [gsubF, h0]
      have hrec := ih k (pre ++ [c]) t n repl
        (by simpa using hf) ht
        (fun a b hab ha hb => by
          have := hnone (c :: a) b (by rw [List.cons_append, hab]; rfl) (by simpa using ha) hb
          simpa [List.append_assoc] using this)
        (by simpa [List.append_assoc] using hm)
      rw [hrec]
      simp [List.append_assoc]

theorem gsubF_pre_irrel (m : JsMatcher) (hm : ∀ p1 p2 s, m p1 s = m p2 s) :
    ∀ fuel p1 p2 s, gsubF m fuel p1 s = gsubF m fuel p2 s := by
  intro fuel
  induction fuel with
  | zero => intro p1 p2 s; cases s <;> rfl
  | succ k ih =>
    intro p1 p2 s
    cases s with
    | nil => rfl
    | cons c rest =>
      simp only [gsubF]
      rw [hm p1 p2 (c :: rest)]
      rcases h2 : m p2 (c :: rest) with _ | ⟨n, repl⟩
      · simp only [h2]
        rw [ih (p1 ++ [c]) (p2 ++ [c]) rest]
      · cases n with
        | zero =>
          simp only [h2]
          rw [ih (p1 ++ [c]) (p2 ++ [c]) rest]
        | succ n =>
          simp only [h2]
          rw [ih (p1 ++ (c :: rest).take (n + 1)) (p2 ++ (c :: rest).take (n + 1)) (rest.drop n)]

theorem jsRepl_dollarFree (groups : List (List Char)) (mtch pre post : List Char) :
    ∀ tmpl, DollarFree tmpl → jsRepl groups mtch pre post tmpl = tmpl := by
  intro tmpl
  induction tmpl with
  | nil => intro _; rfl
  | cons c r ih =>
    intro h
    have hc : ¬ c = '$' := by
      intro hc; exact h (by rw [hc]; exact List.mem_cons_self _ _)
    have hr : DollarFree r := fun hm => h (List.mem_cons_of_mem _ hm)
    have hstep : jsRepl groups mtch pre post (c :: r) = c :: jsRepl groups mtch pre post r := by
      conv_lhs => rw [jsRepl.eq_def]
      simp [hc]
    rw [hstep, ih hr]

theorem isPrefixOf_append_self (l r : List Char) : l.isPrefixOf (l ++ r) = true := by
  induction l with
  | nil => simp [List.isPrefixOf]
  | cons c t ih => simp [List.isPrefixOf, ih]

theorem prefix_exists_of_isPrefixOf {l s : List Char} (h : l.isPrefixOf s = true) :
    ∃ u, s = l ++ u := by
  rcases List.isPrefixOf_iff_prefix.mp h with ⟨u, hu⟩
  exact ⟨u, hu.symm⟩

theorem drop_len_append (a b : List Char) : (a ++ b).drop a.length = b :=
  List.drop_left a b

theorem wsRunLen_append (w : List Char) (c : Char) (x : List Char)
    (hw : ∀ d ∈ w, jsWsChar d = true) (hc : jsWsChar c = false) :
    wsRunLen (w ++ c :: x) = w.length := by
  induction w with
  | nil => simp [wsRunLen, List.takeWhile_cons, hc]
  | cons d w2 ih =>
    have hd : jsWsChar d = true := hw d (List.mem_cons_self _ _)
    have ih2 := ih (fun e he => hw e (List.mem_cons_of_mem _ he))
    simp only [List.cons_append, wsRunLen, List.takeWhile_cons, hd, if_true,
      List.length_cons] at ih2 ⊢
    omega

theorem mem_take_wsRun (s : List Char) : ∀ n, n ≤ wsRunLen s → ∀ c ∈ s.take n, jsWsChar c = true := by
  induction s with
  | nil => intro n _ c hc; simp at hc
  | cons d r ih =>
    intro n hn c hc
    cases n with
    | zero => simp at hc
    | succ k =>
      by_cases hd : jsWsChar d = true
      · simp only [List.take_succ_cons, List.mem_cons] at hc
        rcases hc with hc | hc
        · subst hc; exact hd
        · apply ih k ?_ c hc
          have hlen : wsRunLen (d :: r) = wsRunLen r + 1 := by
            simp [wsRunLen, List.takeWhile_cons, hd]
          omega
      · have hlen : wsRunLen (d :: r) = 0 := by
          simp [wsRunLen, List.takeWhile_cons, hd]
        omega

theorem tryCloserFrom_complete (cb : Char) (w r : List Char) :
    tryCloserFrom cb (w ++ cb :: cb :: r) w.length = some (w.length + 2) := by
  cases w with
  | nil =>
    show tryCloserFrom cb (cb :: cb :: r) 0 = some 2
    have hp : ([cb, cb]).isPrefixOf (cb :: cb :: r) = true := isPrefixOf_append_self [cb, cb] r
    simp [tryCloserFrom, hp]
  | cons d w2 =>
    show tryCloserFrom cb ((d :: w2) ++ cb :: cb :: r) (w2.length + 1) = some (w2.length + 1 + 2)
    have hdrop : ((d :: w2) ++ cb :: cb :: r).drop (w2.length + 1) = cb :: cb :: r :=
      drop_len_append (d :: w2) (cb :: cb :: r)
    have hp : ([cb, cb]).isPrefixOf (cb :: cb :: r) = true := isPrefixOf_append_self [cb, cb] r
    simp [tryCloserFrom, hdrop, hp]

theorem tokSearch_of_top (cb : Char) (key rest : List Char) (n : Nat) (x : Nat)
    (h : tokTryAt cb key rest n = some x) : tokSearch cb key rest n = some x := by
  cases n with
  | zero => exact h
  | succ k => simp [tokSearch, h]

theorem matchTokLen_complete (ob cb : Char) (key t r : List Char)
    (hcb : jsWsChar cb = false)
    (hkey : key ≠ []) (hkw : ∀ c ∈ key, jsWsChar c = false)
    (ht : IsTokStr ob cb key t) :
    matchTokLen ob cb key (t ++ r) = some t.length := by
  obtain ⟨w1, w2, hw1, hw2, heq⟩ := ht
  obtain ⟨kh, kt, hk⟩ := List.exists_cons_of_ne_nil hkey
  subst heq
  have hkh : jsWsChar kh = false := by
    apply hkw
    rw [hk]; exact List.mem_cons_self _ _
  -- normalise the appended form
  have hshape : (ob :: ob :: (w1 ++ key ++ w2 ++ [cb, cb])) ++ r =
      ob :: ob :: (w1 ++ (key ++ (w2 ++ cb :: cb :: r))) := by
    simp [List.append_assoc]
  rw [hshape]
  have hws : wsRunLen (w1 ++ (key ++ (w2 ++ cb :: cb :: r))) = w1.length := by
    rw [hk]
    exact wsRunLen_append w1 kh _ hw1 hkh
  have hdrop1 : (w1 ++ (key ++ (w2 ++ cb :: cb :: r))).drop w1.length =
      key ++ (w2 ++ cb :: cb :: r) := drop_len_append _ _
  have hkeypre : key.isPrefixOf ((w1 ++ (key ++ (w2 ++ cb :: cb :: r))).drop w1.length) = true := by
    rw [hdrop1]; exact isPrefixOf_append_self key _
  have hdrop2 : ((w1 ++ (key ++ (w2 ++ cb :: cb :: r))).drop w1.length).drop key.length =
      w2 ++ cb :: cb :: r := by
    rw [hdrop1]; exact drop_len_append key _
  have hws2 : wsRunLen (w2 ++ cb :: cb :: r) = w2.length :=
    wsRunLen_append w2 cb _ hw2 hcb
  have htry : tokTryAt cb key (w1 ++ (key ++ (w2 ++ cb :: cb :: r))) w1.length =
      some (w1.length + key.length + (w2.length + 2)) := by
    simp only [tokTryAt, hkeypre, if_true, hdrop2, hws2, tryCloserFrom_complete]
    rfl
  have hsearch : tokSearch cb key (w1 ++ (key ++ (w2 ++ cb :: cb :: r))) w1.length =
      some (w1.length + key.length + (w2.length + 2)) :=
    tokSearch_of_top cb key _ w1.length _ htry
  show matchTokLen ob cb key (ob :: ob :: (w1 ++ (key ++ (w2 ++ cb :: cb :: r)))) = _
  simp only [matchTokLen, hws, hsearch]
  simp [List.length_append]
  omega

theorem tryCloserFrom_sound (cb : Char) (s : List Char) : ∀ N m, tryCloserFrom cb s N = some m →
    ∃ n2, n2 ≤ N ∧ ([cb, cb]).isPrefixOf (s.drop n2) = true ∧ m = n2 + 2 := by
  intro N
  induction N with
  | zero =>
    intro m h
    simp only [tryCloserFrom] at h
    split at h
    · next hp =>
      injection h with h2
      exact ⟨0, Nat.le_refl 0, by simpa using hp, by omega⟩
    · exact absurd h (by simp)
  | succ k ih =>
    intro m h
    simp only [tryCloserFrom] at h
    split at h
    · next hp =>
      injection h with h2
      exact ⟨k + 1, Nat.le_refl _, hp, by omega⟩
    · rcases ih m h with ⟨n2, hn2, hp, hm⟩
      exact ⟨n2, Nat.le_succ_of_le hn2, hp, hm⟩

theorem tokSearch_sound (cb : Char) (key rest : List Char) : ∀ N x, tokSearch cb key rest N = some x →
    ∃ n, n ≤ N ∧ tokTryAt cb key rest n = some x := by
  intro N
  induction N with
  | zero => intro x h; exact ⟨0, Nat.le_refl 0, h⟩
  | succ k ih =>
    intro x h
    simp only [tokSearch] at h
    rcases ht : tokTryAt cb key rest (k + 1) with _ | t
    · rw [ht] at h
      rcases ih x h with ⟨n, hn, h2⟩
      exact ⟨n, Nat.le_succ_of_le hn, h2⟩
    · rw [ht] at h
      injection h with h2
      exact ⟨k + 1, Nat.le_refl _, by rw [ht, h2]⟩

theorem tokTryAt_sound (cb : Char) (key rest : List Char) (n x : Nat)
    (h : tokTryAt cb key rest n = some x) :
    key.isPrefixOf (rest.drop n) = true ∧
    ∃ n2, n2 ≤ wsRunLen ((rest.drop n).drop key.length) ∧
      ([cb, cb]).isPrefixOf (((rest.drop n).drop key.length).drop n2) = true ∧
      x = n + key.length + (n2 + 2) := by
  simp only [tokTryAt] at h
  split at h
  · next hp =>
    rcases hc : tryCloserFrom cb ((rest.drop n).drop key.length)
        (wsRunLen ((rest.drop n).drop key.length)) with _ | m
    · rw [hc] at h; simp at h
    · rw [hc] at h
      have h2 : n + key.length + m = x := by simpa using h
      rcases tryCloserFrom_sound cb _ _ m hc with ⟨n2, hn2, hpre, hm⟩
      exact ⟨hp, n2, hn2, hpre, by omega⟩
  · exact absurd h (by simp)

theorem matchTokLen_sound (ob cb : Char) (key s : List Char) (n : Nat)
    (h : matchTokLen ob cb key s = some n) : TokAt ob cb key s 0 := by
  cases s with
  | nil => simp [matchTokLen] at h
  | cons c1 s1 =>
    cases s1 with
    | nil => simp [matchTokLen] at h
    | cons c2 rest =>
      simp only [matchTokLen] at h
      split at h
      · next hob =>
        obtain ⟨hc1, hc2⟩ := hob
        rw [hc1, hc2]
        rcases hs : tokSearch cb key rest (wsRunLen rest) with _ | t
        · rw [hs] at h; simp at h
        · rcases tokSearch_sound cb key rest _ t hs with ⟨n1, hn1, htt⟩
          rcases tokTryAt_sound cb key rest n1 t htt with ⟨hkp, n2, hn2, hcp, hx⟩
          obtain ⟨u1, hu1⟩ := prefix_exists_of_isPrefixOf hkp
          obtain ⟨u2, hu2⟩ := prefix_exists_of_isPrefixOf hcp
          have hA : (rest.drop n1).drop key.length = u1 := by
            rw [hu1]; exact drop_len_append key u1
          have hrd : rest.drop n1 =
              key ++ (((rest.drop n1).drop key.length).take n2 ++ ([cb, cb] ++ u2)) := by
            conv_lhs => rw [hu1]
            congr 1
            rw [← hA]
            conv_lhs => rw [← List.take_append_drop n2 ((rest.drop n1).drop key.length)]
            rw [hu2]
          have hrest2 : rest =
              rest.take n1 ++ (key ++ (((rest.drop n1).drop key.length).take n2 ++ ([cb, cb] ++ u2))) := by
            conv_lhs => rw [← List.take_append_drop n1 rest]
            exact congrArg (fun l => rest.take n1 ++ l) hrd
          refine ⟨ob :: ob :: (rest.take n1 ++ key ++ ((rest.drop n1).drop key.length).take n2 ++ [cb, cb]),
            u2, ⟨rest.take n1, ((rest.drop n1).drop key.length).take n2,
              mem_take_wsRun rest n1 hn1, mem_take_wsRun _ n2 hn2, rfl⟩, ?_⟩
          show ob :: ob :: rest = _
          conv_lhs => rw [hrest2]
          simp [List.append_assoc]
      · exact absurd h (by simp)

theorem matchTokLen_none (ob cb : Char) (key s : List Char)
    (h : ¬ TokAt ob cb key s 0) : matchTokLen ob cb key s = none := by
  rcases hm : matchTokLen ob cb key s with _ | n
  · rfl
  · exact absurd (matchTokLen_sound ob cb key s n hm) h


theorem bool_ne_of_ws {c d : Char} (hc : jsWsChar c = true) (hd : jsWsChar d = false) :
    ¬ c = d := by
  intro he
  subst he
  rw [hc] at hd
  cases hd

theorem tok_no_overlap (ob cb : Char) (key : List Char)
    (hob : jsWsChar ob = false) (hcbne : cb ≠ ob)
    (hkw : ∀ c ∈ key, jsWsChar c = false ∧ c ≠ ob ∧ c ≠ cb) :
    ∀ (s t u : List Char) (i j : Nat), IsTokStr ob cb key t → s.drop i = t ++ u →
      TokAt ob cb key s j → i < j → i + t.length ≤ j := by
  intro s t u i j ht hsi hj hij
  by_contra hlt
  push_neg at hlt
  obtain ⟨w1, w2, hw1, hw2, hteq⟩ := ht
  obtain ⟨t2, u2, ht2, hsj⟩ := hj
  obtain ⟨w1b, w2b, _, _, ht2eq⟩ := ht2
  have hdj : s.drop j = (t ++ u).drop (j - i) := by
    rw [← hsi, List.drop_drop]
    congr 1
    omega
  have hd2 : j - i < t.length := by omega
  have hsplit : (t ++ u).drop (j - i) = t.drop (j - i) ++ u := by
    rw [List.drop_append_eq_append_drop]
    have hz : j - i - t.length = 0 := by omega
    rw [hz]
    rfl
  have hM : ∀ c ∈ w1 ++ key ++ w2 ++ [cb, cb], ¬ c = ob := by
    intro c hc
    simp only [List.append_assoc, List.mem_append, List.mem_cons,
      List.not_mem_nil, or_false] at hc
    rcases hc with hc | hc | hc | hc | hc
    · exact bool_ne_of_ws (hw1 c hc) hob
    · exact (hkw c hc).2.1
    · exact bool_ne_of_ws (hw2 c hc) hob
    · subst hc; exact hcbne
    · subst hc; exact hcbne
  -- the contested suffix starts with two open brackets
  have hQ : t.drop (j - i) ++ u = ob :: ob :: ((w1b ++ key ++ w2b ++ [cb, cb]) ++ u2) := by
    rw [← hsplit, ← hdj, hsj, ht2eq]
    rfl
  obtain ⟨k, hk⟩ : ∃ k, j - i = k + 1 := ⟨j - i - 1, by omega⟩
  have hMne : w1 ++ key ++ w2 ++ [cb, cb] ≠ [] := by
    intro hcon
    have := congrArg List.length hcon
    simp [List.length_append] at this
  cases k with
  | zero =>
    -- offset one: the second bracket aligns with the first character of the body
    rw [hk, hteq] at hQ
    simp only [List.drop_succ_cons, List.drop_zero, List.cons_append] at hQ
    obtain ⟨m0, M1, hm0⟩ := List.exists_cons_of_ne_nil hMne
    rw [hm0] at hQ
    simp only [List.cons_append, List.cons.injEq] at hQ
    have hmem : m0 ∈ w1 ++ key ++ w2 ++ [cb, cb] := by
      rw [hm0]; exact List.mem_cons_self _ _
    exact hM m0 hmem hQ.2.1
  | succ k2 =>
    rw [hk, hteq] at hQ
    simp only [List.drop_succ_cons] at hQ
    have hklt : k2 < (w1 ++ key ++ w2 ++ [cb, cb]).length := by
      have := congrArg List.length hteq
      simp only [List.length_cons] at this
      omega
    rw [List.drop_eq_getElem_cons hklt] at hQ
    simp only [List.cons_append, List.cons.injEq] at hQ
    exact hM _ (List.getElem_mem hklt) hQ.1

theorem tokMatcher_none (ob cb : Char) (key v p b : List Char)
    (h : ¬ TokAt ob cb key b 0) : tokMatcher ob cb key v p b = none := by
  unfold tokMatcher
  rw [matchTokLen_none ob cb key b h]
  rfl

theorem tokMatcher_pre_irrel (ob cb : Char) (key v : List Char) (hv : DollarFree v) :
    ∀ p1 p2 s, tokMatcher ob cb key v p1 s = tokMatcher ob cb key v p2 s := by
  intro p1 p2 s
  unfold tokMatcher
  rcases hm : matchTokLen ob cb key s with _ | n
  · rfl
  · simp only [Option.map_some']
    rw [jsRepl_dollarFree [] (s.take n) p1 (s.drop n) v hv,
      jsRepl_dollarFree [] (s.take n) p2 (s.drop n) v hv]

theorem replaceTok_spec (ob cb : Char) (key v : List Char)
    (hob : jsWsChar ob = false) (hcb : jsWsChar cb = false) (hcbne : cb ≠ ob)
    (hkey : key ≠ []) (hkw : ∀ c ∈ key, jsWsChar c = false ∧ c ≠ ob ∧ c ≠ cb)
    (hv : DollarFree v) :
    (∀ s, (∀ i, ¬ TokAt ob cb key s i) → replaceTok ob cb key v s = s) ∧
    (∀ u t r, IsTokStr ob cb key t →
      (∀ i, i < u.length → ¬ TokAt ob cb key (u ++ (t ++ r)) i) →
      replaceTok ob cb key v (u ++ (t ++ r)) = u ++ v ++ replaceTok ob cb key v r) := by
  constructor
  · intro s hno
    unfold replaceTok gsub
    apply gsubF_no_match
    · exact Nat.le_refl _
    · intro a b hab hb
      apply tokMatcher_none
      rintro ⟨t, w, ht, hbu⟩
      exact hno a.length ⟨t, w, ht, by rw [hab, drop_len_append]; exact hbu⟩
  · intro u t r ht hno
    have hmt : matchTokLen ob cb key (t ++ r) = some t.length :=
      matchTokLen_complete ob cb key t r hcb hkey (fun c hc => (hkw c hc).1) ht
    have htne : t ≠ [] := by
      obtain ⟨w1, w2, _, _, hteq⟩ := ht
      rw [hteq]; simp
    obtain ⟨tl, htl⟩ : ∃ tl, t.length = tl + 1 := by
      cases t with
      | nil => exact absurd rfl htne
      | cons a b => exact ⟨b.length, rfl⟩
    have hmatch : tokMatcher ob cb key v ([] ++ u) (t ++ r) = some (tl + 1, v) := by
      unfold tokMatcher
      rw [hmt]
      simp only [Option.map_some']
      rw [jsRepl_dollarFree [] ((t ++ r).take t.length) ([] ++ u) ((t ++ r).drop t.length) v hv, htl]
    have hbreak := gsubF_break (tokMatcher ob cb key v) u ((u ++ (t ++ r)).length) [] (t ++ r)
      tl v (Nat.le_refl _) (by simp [htne])
      (fun a b hab ha hb => by
        apply tokMatcher_none
        rintro ⟨tt, w, htt, hbu⟩
        exact hno a.length ha ⟨tt, w, htt, by rw [hab, drop_len_append]; exact hbu⟩)
      hmatch
    unfold replaceTok gsub
    rw [hbreak]
    have htake : (t ++ r).take (tl + 1) = t := by rw [← htl]; exact List.take_left t r
    have hdrop : (t ++ r).drop (tl + 1) = r := by rw [← htl]; exact drop_len_append t r
    rw [htake, hdrop]
    rw [gsubF_pre_irrel (tokMatcher ob cb key v) (tokMatcher_pre_irrel ob cb key v hv)
      r.length ([] ++ u ++ t) [] r]

/-- C1, counterexample to the claim as stated: a value containing a
JavaScript replacement-template escape is not inserted verbatim — with the
user-supplied value `$&` the token `[[a]]` is "replaced" by the matched text
itself instead of by the value. -/
theorem c1_counterexample :
    substituteAllPlaceholders
      { id := strL "f1", path := strL "p.html", name := strL "p.html",
        content := strL "[[a]]", type := strL "text/html", objectUrl := none,
        isMain := false, newFileName := strL "p.html", placeholders := [strL "a"],
        placeholderValues := [(strL "a", strL "$&")], linkPlaceholders := [] } [] =
      strL "[[a]]" ∧ strL "[[a]]" ≠ strL "$&" := by
  constructor
  · decide
  · decide

/-- C1 (amended): for every wordlike placeholder name and every dollar-free
inserted string, each replacement pass of `substituteAllPlaceholders`
replaces every occurrence of the name in both token forms — token-free text
is untouched, the leftmost token is replaced and scanning continues behind
it, and tokens cannot overlap, so the decomposition reaches all of them;
link placeholders with an assigned target are substituted with the target
file's current `newFileName` and unassigned ones are left in place; and the
substituted content is what `handlePackageZip` writes into the archive
(after link rewriting and global-script insertion). -/
theorem c1_placeholder_substitution (key v : List Char)
    (hk : WordKey key) (hv : DollarFree v) : C1Spec key v := by
  obtain ⟨hkey, hkw⟩ := hk
  refine ⟨?_, ?_, ?_, ?_, ?_⟩
  · have hs := replaceTok_spec '[' ']' key v (by decide) (by decide) (by decide) hkey
      (fun c hc => ⟨(hkw c hc).1, (hkw c hc).2.1, (hkw c hc).2.2.1⟩) hv
    exact ⟨hs.1, hs.2, tok_no_overlap '[' ']' key (by decide) (by decide)
      (fun c hc => ⟨(hkw c hc).1, (hkw c hc).2.1, (hkw c hc).2.2.1⟩)⟩
  · have hs := replaceTok_spec obraceCh cbraceCh key v (by decide) (by decide) (by decide) hkey
      (fun c hc => ⟨(hkw c hc).1, (hkw c hc).2.2.2.1, (hkw c hc).2.2.2.2⟩) hv
    exact ⟨hs.1, hs.2, tok_no_overlap obraceCh cbraceCh key (by decide) (by decide)
      (fun c hc => ⟨(hkw c hc).1, (hkw c hc).2.2.2.1, (hkw c hc).2.2.2.2⟩)⟩
  · intro all s k2 tid h
    simp only [linkSubstStep, h]
  · intro all s k2 tid tf h
    simp only [linkSubstStep, h]
  · intro st f hf
    show (dirOf f.path ++ f.newFileName, packagedContent st f) ∈ zipWrites st
    exact List.mem_append_left _ (List.mem_append_left _ (List.mem_map.mpr ⟨f, hf, rfl⟩))

/-- C1 witness: the amended theorem applied at a concrete name and value. -/
theorem c1_placeholder_substitution_witness :
    WordKey (strL "a") ∧ DollarFree (strL "x") ∧ C1Spec (strL "a") (strL "x") :=
  ⟨by unfold WordKey; decide, by unfold DollarFree; decide,
    c1_placeholder_substitution (strL "a") (strL "x")
      (by unfold WordKey; decide) (by unfold DollarFree; decide)⟩

/-- C9: deleting an uploaded file removes it from both lists, resets every
link-placeholder entry that pointed at it to the empty string, and leaves
every other field of the remaining files unchanged. -/
theorem c9_delete_no_dangling (st : ProjState) (id : List Char)
    (hid : id ≠ []) (hex : ∃ f ∈ st.files, f.id = id) : C9Spec st id := by
  obtain ⟨f0, hf0, hfid⟩ := hex
  obtain ⟨g, hg⟩ : ∃ g, st.files.find? (fun f => decide (f.id = id)) = some g := by
    rcases hfind : st.files.find? (fun f => decide (f.id = id)) with _ | g
    · exfalso
      have := List.find?_eq_none.mp hfind f0 hf0
      simp [hfid] at this
    · exact ⟨g, hfind⟩
  unfold C9Spec handleDeleteFile
  rw [hg]
  refine ⟨?_, ?_, rfl, ?_⟩
  · intro f hf
    simp only [List.mem_filter, decide_not] at hf
    simpa using hf.2
  · intro hf hmem
    simp only [List.mem_filter, List.mem_map, decide_not] at hmem
    simpa using hmem.2
  · intro hf hmem
    simp only [List.mem_filter, List.mem_map] at hmem
    obtain ⟨⟨hf0b, hmem0, heq⟩, _⟩ := hmem
    subst heq
    constructor
    · intro kv hkv
      simp only [List.mem_map] at hkv
      obtain ⟨kv0, _, hkv0⟩ := hkv
      rw [← hkv0]
      by_cases hv : kv0.2 = id
      · simp only [hv, if_pos rfl]
        intro hcon
        exact hid hcon.symm
      · simp only [if_neg hv]
        exact hv
    · exact ⟨hf0b, hmem0, rfl, rfl, rfl, rfl, rfl, rfl, rfl, rfl, rfl, rfl, rfl⟩

/-- C9 witness: a concrete two-file state where the remaining HTML file
links to the deleted one. -/
theorem c9_delete_no_dangling_witness :
    ((strL "a.html-1" : List Char) ≠ [] ∧ ∃ f ∈ exState9.files, f.id = strL "a.html-1") ∧
      C9Spec exState9 (strL "a.html-1") :=
  ⟨⟨by decide, by decide⟩, c9_delete_no_dangling exState9 (strL "a.html-1") (by decide) (by decide)⟩

theorem optimizeEach_error (resOf : HtmlFile → Except (List Char) (List Char)) :
    ∀ (l : List HtmlFile) (f : HtmlFile), f ∈ l → f.isMain = false →
      ∀ e, resOf f = Except.error e → ∃ e2, optimizeEach resOf l = Except.error e2 := by
  intro l
  induction l with
  | nil => intro f hf; simp at hf
  | cons a r ih =>
    intro f hf hmain e herr
    rcases List.mem_cons.mp hf with rfl | hfr
    · refine ⟨e, ?_⟩
      simp only [optimizeEach, hmain, Bool.false_eq_true, if_false, herr, Except.map]
    · rcases ha : (if a.isMain then Except.ok a
          else (resOf a).map (fun newName => { a with newFileName := newName ++ strL ".html" })) with ea | b
      · exact ⟨ea, by simp only [optimizeEach, ha]⟩
      · obtain ⟨e2, h2⟩ := ih f hfr hmain e herr
        exact ⟨e2, by simp only [optimizeEach, ha, h2]⟩

/-- C7: if any per-file filename-optimization call fails, the project state
(including every `newFileName`) is left exactly as it was and the failure is
surfaced only as a notification. -/
theorem c7_optimize_names_atomic (resOf : HtmlFile → Except (List Char) (List Char))
    (apiKey : List Char) (st : ProjState) (f : HtmlFile) (e : List Char)
    (hf : f ∈ st.htmlFiles) (hmain : f.isMain = false)
    (herr : resOf f = Except.error e) : C7Spec resOf apiKey st := by
  unfold C7Spec handleOptimizeNames
  by_cases hk : apiKey = []
  · simp [hk]
  · rw [if_neg hk]
    obtain ⟨e2, he2⟩ := optimizeEach_error resOf st.htmlFiles f hf hmain e herr
    rw [he2]
    exact ⟨rfl, rfl⟩

/-- C7 witness: a concrete one-page state whose single API call rejects. -/
theorem c7_optimize_names_atomic_witness :
    (exHtmlC7 ∈ exState7.htmlFiles ∧ exHtmlC7.isMain = false ∧
      resOfFail exHtmlC7 = Except.error (strL "network error")) ∧
    C7Spec resOfFail (strL "key") exState7 :=
  ⟨⟨by decide, by decide, rfl⟩,
    c7_optimize_names_atomic resOfFail (strL "key") exState7 exHtmlC7 (strL "network error")
      (by decide) (by decide) rfl⟩

theorem dedupFirst_nodup : ∀ (l seen : List (List Char)),
    (dedupFirst seen l).Nodup ∧ ∀ x ∈ dedupFirst seen l, x ∉ seen := by
  intro l
  induction l with
  | nil => intro seen; simp [dedupFirst]
  | cons x r ih =>
    intro seen
    by_cases hx : x ∈ seen
    · have hr := ih seen
      simp only [dedupFirst, if_pos hx]
      exact hr
    · have hr := ih (seen ++ [x])
      simp only [dedupFirst, if_neg hx]
      constructor
      · apply List.Nodup.cons
        · intro hmem
          exact (hr.2 x hmem) (by simp)
        · exact hr.1
      · intro y hy
        rcases List.mem_cons.mp hy with rfl | hyr
        · exact hx
        · intro hys
          exact (hr.2 y hyr) (by simp [hys])

theorem mkHtmlEntry_text_keys (f : SiteFile) :
    (mkHtmlEntry f).placeholderValues.map Prod.fst =
      (scanPlaceholders f.content).filter (fun p => ¬ isLinkName p) := by
  unfold mkHtmlEntry
  simp only [List.map_map]
  have hid : (Prod.fst ∘ fun p : List Char => (p, ([] : List Char))) = id := rfl
  rw [hid, List.map_id]

theorem mkHtmlEntry_link_keys (f : SiteFile) :
    (mkHtmlEntry f).linkPlaceholders.map Prod.fst =
      (scanPlaceholders f.content).filter (fun p => isLinkName p) := by
  unfold mkHtmlEntry
  simp only [List.map_map]
  have hid : (Prod.fst ∘ fun p : List Char => (p, ([] : List Char))) = id := rfl
  rw [hid, List.map_id]

/-- C3: the placeholder scan yields a duplicate-free name list; link-prefixed
names become keys of exactly the link map and all other names keys of
exactly the value map, so placeholder keys are unique per file. -/
theorem c3_placeholder_scan_partition (f : SiteFile) :
    (scanPlaceholders f.content).Nodup ∧
    ((mkHtmlEntry f).placeholderValues.map Prod.fst).Nodup ∧
    ((mkHtmlEntry f).linkPlaceholders.map Prod.fst).Nodup ∧
    ∀ p ∈ scanPlaceholders f.content,
      (isLinkName p = true →
        p ∈ (mkHtmlEntry f).linkPlaceholders.map Prod.fst ∧
        ¬ p ∈ (mkHtmlEntry f).placeholderValues.map Prod.fst) ∧
      (isLinkName p = false →
        p ∈ (mkHtmlEntry f).placeholderValues.map Prod.fst ∧
        ¬ p ∈ (mkHtmlEntry f).linkPlaceholders.map Prod.fst) := by
  have hnodup : (scanPlaceholders f.content).Nodup :=
    (dedupFirst_nodup ((scanAll f.content.length f.content).map jsTrim) []).1
  refine ⟨hnodup, ?_, ?_, ?_⟩
  · rw [mkHtmlEntry_text_keys]
    exact hnodup.filter _
  · rw [mkHtmlEntry_link_keys]
    exact hnodup.filter _
  · intro p hp
    constructor
    · intro hlink
      rw [mkHtmlEntry_link_keys, mkHtmlEntry_text_keys]
      constructor
      · exact List.mem_filter.mpr ⟨hp, by simp [hlink]⟩
      · intro hmem
        have := (List.mem_filter.mp hmem).2
        simp [hlink] at this
    · intro hlink
      rw [mkHtmlEntry_link_keys, mkHtmlEntry_text_keys]
      constructor
      · exact List.mem_filter.mpr ⟨hp, by simp [hlink]⟩
      · intro hmem
        have := (List.mem_filter.mp hmem).2
        simp [hlink] at this

theorem mainCount_append (a b : List HtmlFile) :
    mainCount (a ++ b) = mainCount a + mainCount b := by
  simp [mainCount, List.filter_append]

theorem mainCount_map_of (g : HtmlFile → HtmlFile) (l : List HtmlFile)
    (hg : ∀ f, (g f).isMain = f.isMain) : mainCount (l.map g) = mainCount l := by
  unfold mainCount
  rw [List.filter_map, List.length_map]
  congr 1
  apply List.filter_congr
  intro f _
  simp [Function.comp, hg f]

theorem mainCount_filter_le_self (p : HtmlFile → Bool) (l : List HtmlFile) :
    mainCount (l.filter p) ≤ mainCount l := by
  unfold mainCount
  exact List.Sublist.length_le (List.Sublist.filter _ (List.filter_sublist l))

theorem ids_map_eq (g : HtmlFile → HtmlFile) (l : List HtmlFile)
    (hg : ∀ f, (g f).id = f.id) :
    (l.map g).map (fun f => f.id) = l.map (fun f => f.id) := by
  rw [List.map_map]
  apply List.map_congr_left
  intro a _
  exact hg a

theorem mainCount_filter_id_le (l : List HtmlFile) (id : List Char)
    (hn : (l.map (fun f => f.id)).Nodup) :
    (l.filter (fun f => decide (f.id = id))).length ≤ 1 := by
  induction l with
  | nil => simp
  | cons a r ih =>
    simp only [List.map_cons, List.nodup_cons] at hn
    by_cases ha : a.id = id
    · have hz : r.filter (fun f => decide (f.id = id)) = [] := by
        rw [List.filter_eq_nil_iff]
        intro f hf
        simp only [decide_eq_true_eq]
        intro hfid
        exact hn.1 (List.mem_map.mpr ⟨f, hf, by rw [hfid, ha]⟩)
      simp [List.filter_cons, ha, hz]
    · simp only [List.filter_cons, decide_eq_true_eq, ha, if_false]
      exact ih hn.2


theorem ingestStep_inv (st : ProjState) (batch : List SiteFile)
    (hbatch : (batch.map (fun f => f.id)).Nodup)
    (h1 : (st.files.map (fun f => f.id)).Nodup)
    (h2 : (st.htmlFiles.map (fun f => f.id)).Nodup)
    (h3 : ∀ h ∈ st.htmlFiles, h.id ∈ st.files.map (fun f => f.id))
    (h4 : mainCount st.htmlFiles ≤ 1) :
    (((ingestStep st batch).files.map (fun f => f.id)).Nodup) ∧
    (((ingestStep st batch).htmlFiles.map (fun f => f.id)).Nodup) ∧
    (∀ h ∈ (ingestStep st batch).htmlFiles,
      h.id ∈ (ingestStep st batch).files.map (fun f => f.id)) ∧
    mainCount (ingestStep st batch).htmlFiles ≤ 1 := by
  have hfiles : (ingestStep st batch).files = st.files ++ batch.filter (fun f =>
      decide (¬ f.path = []) && decide (¬ f.id ∈ st.files.map (fun f => f.id))) := rfl
  have hhtml : (ingestStep st batch).htmlFiles = st.htmlFiles ++
      ((batch.filter (fun f => decide (¬ f.path = []) &&
        decide (¬ f.id ∈ st.files.map (fun f => f.id)))).filter
        (fun f => decide (f.type = strL "text/html"))).map mkHtmlEntry := rfl
  rw [hfiles, hhtml]
  have hnewsub : ((batch.filter (fun f => decide (¬ f.path = []) &&
      decide (¬ f.id ∈ st.files.map (fun f => f.id)))).map (fun f => f.id)).Sublist
      (batch.map (fun f => f.id)) :=
    List.Sublist.map _ (List.filter_sublist batch)
  have hnewnodup := List.Nodup.sublist hnewsub hbatch
  have hnewfresh : ∀ x ∈ (batch.filter (fun f => decide (¬ f.path = []) &&
      decide (¬ f.id ∈ st.files.map (fun f => f.id)))).map (fun f => f.id),
      ¬ x ∈ st.files.map (fun f => f.id) := by
    intro x hx
    obtain ⟨f0, hf0, hfx⟩ := List.mem_map.mp hx
    obtain ⟨_, hcond⟩ := List.mem_filter.mp hf0
    simp only [Bool.and_eq_true, decide_eq_true_eq] at hcond
    rw [← hfx]
    exact hcond.2
  have hhtmlids : (((batch.filter (fun f => decide (¬ f.path = []) &&
        decide (¬ f.id ∈ st.files.map (fun f => f.id)))).filter
        (fun f => decide (f.type = strL "text/html"))).map mkHtmlEntry).map (fun f => f.id) =
      ((batch.filter (fun f => decide (¬ f.path = []) &&
        decide (¬ f.id ∈ st.files.map (fun f => f.id)))).filter
        (fun f => decide (f.type = strL "text/html"))).map (fun f => f.id) := by
    rw [List.map_map]
    apply List.map_congr_left
    intro a _
    rfl
  refine ⟨?_, ?_, ?_, ?_⟩
  · rw [List.map_append, List.nodup_append]
    exact ⟨h1, hnewnodup, fun x hx1 hx2 => (hnewfresh x hx2) hx1⟩
  · rw [List.map_append, List.nodup_append, hhtmlids]
    refine ⟨h2, ?_, ?_⟩
    · exact List.Nodup.sublist (List.Sublist.map _ (List.filter_sublist _)) hnewnodup
    · intro x hx1 hx2
      obtain ⟨f0, hf0, hfx⟩ := List.mem_map.mp hx2
      have hcond := (List.mem_filter.mp (List.mem_filter.mp hf0).1).2
      simp only [Bool.and_eq_true, decide_eq_true_eq] at hcond
      apply hcond.2
      rw [hfx]
      obtain ⟨h0, hh0, hhx⟩ := List.mem_map.mp hx1
      rw [← hhx]
      exact h3 h0 hh0
  · intro h hh
    rw [List.map_append, List.mem_append]
    rcases List.mem_append.mp hh with hh | hh
    · exact Or.inl (h3 h hh)
    · right
      obtain ⟨f0, hf0, hfx⟩ := List.mem_map.mp hh
      rw [← hfx]
      show (mkHtmlEntry f0).id ∈ _
      exact List.mem_map.mpr ⟨f0, (List.mem_filter.mp hf0).1, rfl⟩
  · rw [mainCount_append]
    have hz : mainCount (((batch.filter (fun f => decide (¬ f.path = []) &&
        decide (¬ f.id ∈ st.files.map (fun f => f.id)))).filter
        (fun f => decide (f.type = strL "text/html"))).map mkHtmlEntry) = 0 := by
      unfold mainCount
      rw [List.length_eq_zero, List.filter_eq_nil_iff]
      intro x hx
      obtain ⟨f0, _, hfx⟩ := List.mem_map.mp hx
      rw [← hfx]
      simp [mkHtmlEntry]
    omega


theorem mainCount_map_to_filter (g : HtmlFile → HtmlFile) (l : List HtmlFile)
    (p : HtmlFile → Bool) (hg : ∀ f, (g f).isMain = p f) :
    mainCount (l.map g) = (l.filter p).length := by
  unfold mainCount
  rw [List.filter_map, List.length_map]
  congr 1
  apply List.filter_congr
  intro f _
  simp [Function.comp, hg f]

theorem setMainPage_inv (st : ProjState) (id : List Char)
    (h1 : (st.files.map (fun f => f.id)).Nodup)
    (h2 : (st.htmlFiles.map (fun f => f.id)).Nodup)
    (h3 : ∀ h ∈ st.htmlFiles, h.id ∈ st.files.map (fun f => f.id)) :
    (((setMainPage st id).files.map (fun f => f.id)).Nodup) ∧
    (((setMainPage st id).htmlFiles.map (fun f => f.id)).Nodup) ∧
    (∀ h ∈ (setMainPage st id).htmlFiles,
      h.id ∈ (setMainPage st id).files.map (fun f => f.id)) ∧
    mainCount (setMainPage st id).htmlFiles ≤ 1 := by
  refine ⟨h1, ?_, ?_, ?_⟩
  · show ((st.htmlFiles.map _).map (fun f : HtmlFile => f.id)).Nodup
    rw [ids_map_eq]
    · exact h2
    · intro f; rfl
  · intro h hh
    obtain ⟨f0, hf0, hfx⟩ := List.mem_map.mp hh
    have hid : h.id = f0.id := by rw [← hfx]
    rw [hid]
    exact h3 f0 hf0
  · show mainCount (st.htmlFiles.map _) ≤ 1
    rw [mainCount_map_to_filter _ _ (fun f => decide (f.id = id)) (fun f => rfl)]
    exact mainCount_filter_id_le st.htmlFiles id h2

theorem handleDeleteFile_inv (st : ProjState) (id : List Char)
    (h1 : (st.files.map (fun f => f.id)).Nodup)
    (h2 : (st.htmlFiles.map (fun f => f.id)).Nodup)
    (h3 : ∀ h ∈ st.htmlFiles, h.id ∈ st.files.map (fun f => f.id))
    (h4 : mainCount st.htmlFiles ≤ 1) :
    (((handleDeleteFile st id).files.map (fun f => f.id)).Nodup) ∧
    (((handleDeleteFile st id).htmlFiles.map (fun f => f.id)).Nodup) ∧
    (∀ h ∈ (handleDeleteFile st id).htmlFiles,
      h.id ∈ (handleDeleteFile st id).files.map (fun f => f.id)) ∧
    mainCount (handleDeleteFile st id).htmlFiles ≤ 1 := by
  rcases hfind : st.files.find? (fun f => decide (f.id = id)) with _ | g
  · have heq : handleDeleteFile st id = st := by
      unfold handleDeleteFile
      rw [hfind]
    rw [heq]
    exact ⟨h1, h2, h3, h4⟩
  · have hfiles : (handleDeleteFile st id).files =
        st.files.filter (fun f => decide (¬ f.id = id)) := by
      unfold handleDeleteFile
      rw [hfind]
    have hhtml : (handleDeleteFile st id).htmlFiles =
        (st.htmlFiles.map (fun hf =>
          { hf with linkPlaceholders := hf.linkPlaceholders.map (fun kv =>
              (kv.1, if kv.2 = id then [] else kv.2)) })).filter
          (fun hf => decide (¬ hf.id = id)) := by
      unfold handleDeleteFile
      rw [hfind]
    rw [hfiles, hhtml]
    refine ⟨?_, ?_, ?_, ?_⟩
    · exact List.Nodup.sublist (List.Sublist.map _ (List.filter_sublist _)) h1
    · apply List.Nodup.sublist (List.Sublist.map _ (List.filter_sublist _))
      rw [ids_map_eq]
      · exact h2
      · intro f; rfl
    · intro h hh
      obtain ⟨hmem, hcond⟩ := List.mem_filter.mp hh
      obtain ⟨h0, hh0, hhx⟩ := List.mem_map.mp hmem
      have hid : h.id = h0.id := by rw [← hhx]
      obtain ⟨f0, hf0, hfx⟩ := List.mem_map.mp (h3 h0 hh0)
      apply List.mem_map.mpr
      refine ⟨f0, List.mem_filter.mpr ⟨hf0, ?_⟩, by rw [hfx, ← hid]⟩
      simp only [decide_eq_true_eq] at hcond ⊢
      intro hcon
      apply hcond
      rw [hid, ← hfx, hcon]
    · calc mainCount ((st.htmlFiles.map (fun hf =>
            { hf with linkPlaceholders := hf.linkPlaceholders.map (fun kv =>
                (kv.1, if kv.2 = id then [] else kv.2)) })).filter
            (fun hf => decide (¬ hf.id = id)))
          ≤ mainCount (st.htmlFiles.map (fun hf =>
            { hf with linkPlaceholders := hf.linkPlaceholders.map (fun kv =>
                (kv.1, if kv.2 = id then [] else kv.2)) })) := mainCount_filter_le_self _ _
        _ = mainCount st.htmlFiles := mainCount_map_of _ _ (fun f => rfl)
        _ ≤ 1 := h4

theorem renameStep_inv (st : ProjState) (id nm : List Char)
    (h1 : (st.files.map (fun f => f.id)).Nodup)
    (h2 : (st.htmlFiles.map (fun f => f.id)).Nodup)
    (h3 : ∀ h ∈ st.htmlFiles, h.id ∈ st.files.map (fun f => f.id))
    (h4 : mainCount st.htmlFiles ≤ 1) :
    (((renameStep st id nm).files.map (fun f => f.id)).Nodup) ∧
    (((renameStep st id nm).htmlFiles.map (fun f => f.id)).Nodup) ∧
    (∀ h ∈ (renameStep st id nm).htmlFiles,
      h.id ∈ (renameStep st id nm).files.map (fun f => f.id)) ∧
    mainCount (renameStep st id nm).htmlFiles ≤ 1 := by
  have hg : ∀ f : HtmlFile,
      (if f.id = id then ({ f with newFileName := nm } : HtmlFile) else f).id = f.id := by
    intro f
    by_cases hf : f.id = id <;> simp [hf]
  have hgm : ∀ f : HtmlFile,
      (if f.id = id then ({ f with newFileName := nm } : HtmlFile) else f).isMain = f.isMain := by
    intro f
    by_cases hf : f.id = id <;> simp [hf]
  refine ⟨h1, ?_, ?_, ?_⟩
  · show ((st.htmlFiles.map _).map (fun f : HtmlFile => f.id)).Nodup
    rw [ids_map_eq _ _ hg]
    exact h2
  · intro h hh
    obtain ⟨f0, hf0, hfx⟩ := List.mem_map.mp hh
    have hid : h.id = f0.id := by rw [← hfx]; exact hg f0
    rw [hid]
    exact h3 f0 hf0
  · show mainCount (st.htmlFiles.map _) ≤ 1
    rw [mainCount_map_of _ _ hgm]
    exact h4

theorem runOps_inv : ∀ (ops : List ProjOp) (st : ProjState), (∀ op ∈ ops, WFOp op) →
    ((st.files.map (fun f => f.id)).Nodup) →
    ((st.htmlFiles.map (fun f => f.id)).Nodup) →
    (∀ h ∈ st.htmlFiles, h.id ∈ st.files.map (fun f => f.id)) →
    mainCount st.htmlFiles ≤ 1 →
    ((runOps st ops).files.map (fun f => f.id)).Nodup ∧
    ((runOps st ops).htmlFiles.map (fun f => f.id)).Nodup ∧
    (∀ h ∈ (runOps st ops).htmlFiles, h.id ∈ (runOps st ops).files.map (fun f => f.id)) ∧
    mainCount (runOps st ops).htmlFiles ≤ 1 := by
  intro ops
  induction ops with
  | nil => intro st _ a b c d; exact ⟨a, b, c, d⟩
  | cons op rest ih =>
    intro st hwf a b c d
    have hstep : (((applyOp st op).files.map (fun f => f.id)).Nodup) ∧
        (((applyOp st op).htmlFiles.map (fun f => f.id)).Nodup) ∧
        (∀ h ∈ (applyOp st op).htmlFiles,
          h.id ∈ (applyOp st op).files.map (fun f => f.id)) ∧
        mainCount (applyOp st op).htmlFiles ≤ 1 := by
      cases op with
      | ingest batch => exact ingestStep_inv st batch (hwf _ (List.mem_cons_self _ _)) a b c d
      | setMain id => exact setMainPage_inv st id a b c
      | del id => exact handleDeleteFile_inv st id a b c d
      | rename id nm => exact renameStep_inv st id nm a b c d
    exact ih (applyOp st op) (fun o ho => hwf o (List.mem_cons_of_mem _ ho))
      hstep.1 hstep.2.1 hstep.2.2.1 hstep.2.2.2

/-- C2: starting from an empty project, any sequence of ingestions (with
per-batch distinct file identities), main-page selections, deletions and
renames leaves at most one HTML file flagged as main; `setMainPage` flags
exactly the chosen id and freshly ingested files are never flagged. -/
theorem c2_single_main_flag (ops : List ProjOp) (hwf : ∀ op ∈ ops, WFOp op) :
    C2Spec ops := by
  refine ⟨?_, ?_, ?_⟩
  · exact (runOps_inv ops initState hwf (by simp [initState]) (by simp [initState])
      (by simp [initState]) (by simp [initState, mainCount])).2.2.2
  · intro st id f hf
    unfold setMainPage at hf
    obtain ⟨f0, _, hfx⟩ := List.mem_map.mp hf
    rw [← hfx]
  · intro st batch f hf
    unfold ingestStep at hf
    rcases List.mem_append.mp hf with h | h
    · exact Or.inl h
    · right
      obtain ⟨f0, _, hfx⟩ := List.mem_map.mp h
      rw [← hfx]
      rfl

/-- C2 witness: the invariant evaluated over a concrete operation sequence
covering ingestion, two main-page switches, a rename and a deletion. -/
theorem c2_single_main_flag_witness :
    (∀ op ∈ exOps2, WFOp op) ∧ C2Spec exOps2 := by
  have hwf : ∀ op ∈ exOps2, WFOp op := by
    intro op hop
    simp only [exOps2, List.mem_cons, List.not_mem_nil, or_false] at hop
    rcases hop with rfl | rfl | rfl | rfl | rfl
    · exact (by decide : (([exSiteA, exSiteB].map (fun f => f.id)).Nodup))
    · exact trivial
    · exact trivial
    · exact trivial
    · exact trivial
  exact ⟨hwf, c2_single_main_flag exOps2 hwf⟩

theorem assoc_pair_unique {α : Type} : ∀ (l : List (List Char × α)),
    (l.map Prod.fst).Nodup → ∀ a ∈ l, ∀ b ∈ l, a.1 = b.1 → a = b := by
  intro l
  induction l with
  | nil => intro _ a ha; simp at ha
  | cons x r ih =>
    intro hn a ha b hb hab
    simp only [List.map_cons, List.nodup_cons] at hn
    rcases List.mem_cons.mp ha with rfl | har
    · rcases List.mem_cons.mp hb with rfl | hbr
      · rfl
      · exfalso
        exact hn.1 (List.mem_map.mpr ⟨b, hbr, hab.symm⟩)
    · rcases List.mem_cons.mp hb with rfl | hbr
      · exfalso
        exact hn.1 (List.mem_map.mpr ⟨a, har, hab⟩)
      · exact ih hn.2 a har b hbr hab

theorem jsMapGet_iff_mem {α : Type} [DecidableEq α] (l : List (List Char × α))
    (hn : (l.map Prod.fst).Nodup) (p : List Char) (c : α) :
    jsMapGet l p = some c ↔ (p, c) ∈ l := by
  unfold jsMapGet
  constructor
  · intro h
    rcases hfind : l.reverse.find? (fun kv => decide (kv.1 = p)) with _ | kv
    · rw [hfind] at h; simp at h
    · rw [hfind] at h
      simp only [Option.map_some'] at h
      injection h with h2
      have hkv1 : kv.1 = p := by
        have hb := List.find?_some hfind
        exact of_decide_eq_true hb
      have hkvmem : kv ∈ l := List.mem_reverse.mp (List.mem_of_find?_eq_some hfind)
      have : kv = (p, c) := by
        rcases kv with ⟨k1, k2⟩
        simp only at hkv1 h2
        rw [hkv1, h2]
      rw [← this]
      exact hkvmem
  · intro h
    rcases hfind : l.reverse.find? (fun kv => decide (kv.1 = p)) with _ | kv
    · exfalso
      have := List.find?_eq_none.mp hfind (p, c) (List.mem_reverse.mpr h)
      simp at this
    · rw [hfind]
      have hkv1 : kv.1 = p := by
        have hb := List.find?_some hfind
        exact of_decide_eq_true hb
      have hkvmem : kv ∈ l := List.mem_reverse.mp (List.mem_of_find?_eq_some hfind)
      have heq : kv = (p, c) :=
        assoc_pair_unique l hn kv hkvmem (p, c) h (by rw [hkv1])
      rw [heq]
      rfl

/-- C5 counterexample to the claim as stated: in a project containing an
uploaded non-HTML `README.md` with content `X`, the claimed entry set is
inconsistent — the non-HTML clause demands the raw content `X` at
`README.md` while the instructions clause demands the deployment text there,
and the code's later `zip.file("README.md", ...)` write overwrites the
earlier one. -/
theorem c5_counterexample : ¬ ZipClaimAt exState5 := by
  intro h
  have h2 := (h (strL "README.md") (strL "X")).mpr
    (Or.inr (Or.inl ⟨exReadme, by decide, by decide, by decide, by decide⟩))
  have h5 := (h (strL "README.md") deploymentInstructions).mpr
    (Or.inr (Or.inr (Or.inl ⟨rfl, rfl⟩)))
  have h25 : (strL "X" : List Char) = deploymentInstructions := by
    have := h2.symm.trans h5
    injection this
  have hhead := congrArg List.head? h25
  exact absurd hhead (by decide)

/-- C5 (amended): whenever the written entry paths are pairwise distinct,
the archive contains exactly the claimed entries: each HTML file's processed
content at its directory joined with its new filename, each non-HTML file's
raw content at its original path, the deployment `README.md` and
`vercel.json`; on a path collision the later write wins (write order: HTML
files, non-HTML files, `README.md`, `vercel.json`). -/
theorem c5_zip_contents (st : ProjState)
    (hn : ((zipWrites st).map Prod.fst).Nodup) : ZipClaimAt st := by
  intro p c
  rw [show zipGet st p = jsMapGet (zipWrites st) p from rfl]
  rw [jsMapGet_iff_mem (zipWrites st) hn p c]
  unfold zipWrites
  simp only [List.mem_append, List.mem_map, List.mem_filter, List.mem_cons,
    List.not_mem_nil, or_false, Prod.mk.injEq, decide_eq_true_eq]
  constructor
  · rintro ((⟨f, hf, hp, hc⟩ | ⟨f, ⟨hf, ht⟩, hp, hc⟩) | (⟨hp, hc⟩ | ⟨hp, hc⟩))
    · exact Or.inl ⟨f, hf, hp.symm, hc.symm⟩
    · exact Or.inr (Or.inl ⟨f, hf, ht, hp.symm, hc.symm⟩)
    · exact Or.inr (Or.inr (Or.inl ⟨hp, hc⟩))
    · exact Or.inr (Or.inr (Or.inr ⟨hp, hc⟩))
  · rintro (⟨f, hf, hp, hc⟩ | ⟨f, hf, ht, hp, hc⟩ | ⟨hp, hc⟩ | ⟨hp, hc⟩)
    · exact Or.inl (Or.inl ⟨f, hf, hp.symm, hc.symm⟩)
    · exact Or.inl (Or.inr ⟨f, ⟨hf, ht⟩, hp.symm, hc.symm⟩)
    · exact Or.inr (Or.inl ⟨hp, hc⟩)
    · exact Or.inr (Or.inr ⟨hp, hc⟩)

/-- C5 witness: the amended theorem applied to a concrete collision-free
project state. -/
theorem c5_zip_contents_witness :
    ((zipWrites exState9).map Prod.fst).Nodup ∧ ZipClaimAt exState9 :=
  ⟨by decide, c5_zip_contents exState9 (by decide)⟩

theorem isPrefixOf_self (l : List Char) : l.isPrefixOf l = true := by
  have h := isPrefixOf_append_self l []
  simpa using h

theorem findSubIdx_first (pat : List Char) : ∀ (n : Nat) (s : List Char), n ≤ s.length →
    pat.isPrefixOf (s.drop n) = true →
    (∀ i, i < n → pat.isPrefixOf (s.drop i) = false) →
    findSubIdx pat s = some n := by
  intro n
  induction n with
  | zero =>
    intro s _ hpre _
    simp only [List.drop_zero] at hpre
    cases s with
    | nil => simp [findSubIdx, hpre]
    | cons c r => simp [findSubIdx, hpre]
  | succ k ih =>
    intro s hlen hpre hno
    cases s with
    | nil => simp at hlen
    | cons c r =>
      have h0 : pat.isPrefixOf (c :: r) = false := by
        have := hno 0 (Nat.succ_pos k)
        simpa using this
      simp only [findSubIdx, h0, Bool.false_eq_true, if_false]
      have hrec : findSubIdx pat r = some k := by
        apply ih r (by simpa using hlen) (by simpa using hpre)
        intro i hi
        have := hno (i + 1) (by omega)
        simpa using this
      rw [hrec]
      rfl

theorem jsTrim_of_ends (c d : Char) (mid : List Char)
    (hc : jsWsChar c = false) (hd : jsWsChar d = false) :
    jsTrim (c :: (mid ++ [d])) = c :: (mid ++ [d]) := by
  unfold jsTrim
  rw [List.dropWhile_cons]
  simp only [hc, Bool.false_eq_true, if_false]
  have hrev : (c :: (mid ++ [d])).reverse = d :: (mid.reverse ++ [c]) := by simp
  rw [hrev, List.dropWhile_cons]
  simp only [hd, Bool.false_eq_true, if_false]
  simp

theorem fenceGo_hit (rest2 : List Char) (q : Nat)
    (hq : findSubIdx [backtickCh, backtickCh, backtickCh]
      (rest2.drop (wsRunLen rest2)) = some q) :
    fenceGo (([backtickCh, backtickCh, backtickCh] ++ strL "html") ++ rest2) =
      some ((rest2.drop (wsRunLen rest2)).take q) := by
  have hshape : ([backtickCh, backtickCh, backtickCh] ++ strL "html") ++ rest2 =
      backtickCh :: (backtickCh :: (backtickCh :: (strL "html" ++ rest2))) := by
    simp
  have hpre : ([backtickCh, backtickCh, backtickCh] ++ strL "html").isPrefixOf
      (backtickCh :: (backtickCh :: (backtickCh :: (strL "html" ++ rest2)))) = true := by
    rw [← hshape]
    exact isPrefixOf_append_self _ _
  have hdrop : (backtickCh :: (backtickCh :: (backtickCh :: (strL "html" ++ rest2)))).drop 7 =
      rest2 := by
    rw [← hshape]
    rw [show (7 : Nat) = ([backtickCh, backtickCh, backtickCh] ++ strL "html").length from by decide]
    exact drop_len_append _ _
  rw [hshape]
  simp only [fenceGo, hpre, if_true, hdrop, hq]

/-- C6: every AI-service entry point fails on an empty API key before any
request; applyAnalysisFixes returns the cleaned response exactly when it
contains the doctype marker case-insensitively and errors otherwise; and
the clean-up strips a fenced html wrapper. -/
theorem c6_malformed_response_errors : C6Spec := by
  refine ⟨?_, ?_, ?_, ?_⟩
  · intro resp
    exact ⟨rfl, rfl, rfl⟩
  · intro apiKey resp out hok
    by_cases hk : apiKey = []
    · subst hk
      simp [applyAnalysisFixes] at hok
    · unfold applyAnalysisFixes at hok
      rw [if_neg hk] at hok
      by_cases hc : containsSub (asciiLower (cleanFixedHtml resp)) (strL "<!doctype html>") = true
      · rw [if_pos hc] at hok
        have hout : cleanFixedHtml resp = out := by simpa using hok
        refine ⟨hout.symm, ?_, hk⟩
        rw [← hout]
        exact hc
      · rw [if_neg hc] at hok
        exact absurd hok (by simp)
  · intro apiKey resp hk hc
    unfold applyAnalysisFixes
    rw [if_neg hk, if_neg (by simp [hc])]
  · intro b0 body2 hb0 hno
    have hsp : jsWsChar ' ' = true := by decide
    have h1 : strL "```html " =
        ([backtickCh, backtickCh, backtickCh] ++ strL "html") ++ [' '] := by decide
    have hfull : strL "```html " ++ ((b0 :: body2) ++ [backtickCh, backtickCh, backtickCh]) =
        ([backtickCh, backtickCh, backtickCh] ++ strL "html") ++
          (' ' :: ((b0 :: body2) ++ [backtickCh, backtickCh, backtickCh])) := by
      rw [h1]
      simp
    have h2 : strL "```html " ++ ((b0 :: body2) ++ [backtickCh, backtickCh, backtickCh]) =
        backtickCh :: ((strL "``html " ++ ((b0 :: body2) ++ [backtickCh, backtickCh])) ++
          [backtickCh]) := by
      rw [show strL "```html " = backtickCh :: strL "``html " from by decide]
      simp
    have htrim : jsTrim (strL "```html " ++ ((b0 :: body2) ++ [backtickCh, backtickCh, backtickCh])) =
        strL "```html " ++ ((b0 :: body2) ++ [backtickCh, backtickCh, backtickCh]) := by
      rw [h2]
      exact jsTrim_of_ends _ _ _ (by decide) (by decide)
    have hws : wsRunLen (' ' :: ((b0 :: body2) ++ [backtickCh, backtickCh, backtickCh])) = 1 := by
      simp [wsRunLen, List.takeWhile_cons, hsp, hb0]
    have hfind : findSubIdx [backtickCh, backtickCh, backtickCh]
        ((b0 :: body2) ++ [backtickCh, backtickCh, backtickCh]) = some (b0 :: body2).length := by
      apply findSubIdx_first
      · simp
      · rw [drop_len_append]
        exact isPrefixOf_self _
      · intro i hi
        exact hno i (by simpa using hi)
    have hq : findSubIdx [backtickCh, backtickCh, backtickCh]
        ((' ' :: ((b0 :: body2) ++ [backtickCh, backtickCh, backtickCh])).drop
          (wsRunLen (' ' :: ((b0 :: body2) ++ [backtickCh, backtickCh, backtickCh])))) =
        some (b0 :: body2).length := by
      rw [hws]
      simpa using hfind
    have hfence := fenceGo_hit (' ' :: ((b0 :: body2) ++ [backtickCh, backtickCh, backtickCh]))
      (b0 :: body2).length hq
    rw [hws] at hfence
    have htake : ((' ' :: ((b0 :: body2) ++ [backtickCh, backtickCh, backtickCh])).drop 1).take
        (b0 :: body2).length = b0 :: body2 := by
      simp [List.take_left]
    rw [htake] at hfence
    simp only [cleanFixedHtml]
    rw [htrim, hfull, hfence]

theorem c6_malformed_response_errors_witness :
    cleanFixedHtml (strL "```html " ++
        (('x' :: strL "y") ++ [backtickCh, backtickCh, backtickCh])) = 'x' :: strL "y" ∧
    applyAnalysisFixes [] (strL "r") = Except.error apiKeyMissingMsg :=
  ⟨c6_malformed_response_errors.2.2.2 'x' (strL "y") (by decide) (by decide),
    (c6_malformed_response_errors.1 (strL "r")).1⟩

theorem isPrefixOf_append_of (l p r : List Char) (h : l.isPrefixOf p = true) :
    l.isPrefixOf (p ++ r) = true := by
  rw [List.isPrefixOf_iff_prefix] at h ⊢
  exact h.trans (List.prefix_append p r)

theorem href_not_prefix_src (x : List Char) :
    (strL "href").isPrefixOf (strL "src" ++ x) = false := by
  rw [show strL "href" = 'h' :: strL "ref" from rfl,
    show strL "src" ++ x = 's' :: (strL "rc" ++ x) from rfl]
  simp [List.isPrefixOf]

theorem takeWhile_pred_append (pr : Char → Bool) (p : List Char) (c : Char) (r : List Char)
    (hall : ∀ x ∈ p, pr x = true) (hc : pr c = false) :
    (p ++ c :: r).takeWhile pr = p := by
  induction p with
  | nil => simp [List.takeWhile_cons, hc]
  | cons d t ih =>
    have hd : pr d = true := hall d (List.mem_cons_self d t)
    simp only [List.cons_append, List.takeWhile_cons, hd, if_true]
    rw [ih (fun x hx => hall x (List.mem_cons_of_mem d hx))]

theorem takeWhile_drop_head (pr : Char → Bool) : ∀ (l : List Char) (c : Char) (u : List Char),
    l.drop (l.takeWhile pr).length = c :: u → pr c = false := by
  intro l
  induction l with
  | nil => intro c u h; simp at h
  | cons d r ih =>
    intro c u h
    by_cases hd : pr d = true
    · rw [List.takeWhile_cons, if_pos hd] at h
      simp only [List.length_cons, List.drop_succ_cons] at h
      exact ih c u h
    · have hd2 : pr d = false := by simpa using hd
      rw [List.takeWhile_cons, if_neg (by simp [hd2])] at h
      simp only [List.length_nil, List.drop_zero] at h
      cases h
      exact hd2

theorem attrParseAt_complete (a : List Char) (q : Char) (p : List Char) (q2 : Char)
    (r : List Char) (ha : a = strL "href" ∨ a = strL "src") (hq : isQuoteCh q = true)
    (hp : p ≠ []) (hpq : ∀ c ∈ p, isQuoteCh c = false) (hq2 : isQuoteCh q2 = true)
    (h1 : (strL "http://").isPrefixOf (p ++ q2 :: r) = false)
    (h2 : (strL "https://").isPrefixOf (p ++ q2 :: r) = false) :
    attrParseAt (a ++ '=' :: q :: (p ++ q2 :: r)) = some (a, q, p, q2) := by
  have htw : (p ++ q2 :: r).takeWhile (fun c => ¬ isQuoteCh c) = p :=
    takeWhile_pred_append _ p q2 r (fun x hx => by simp [hpq x hx]) (by simp [hq2])
  have hdropp : (p ++ q2 :: r).drop p.length = q2 :: r := drop_len_append p _
  rcases ha with ha | ha
  · subst ha
    have haq : (strL "href").isPrefixOf (strL "href" ++ '=' :: q :: (p ++ q2 :: r)) = true :=
      isPrefixOf_append_self _ _
    have hdropa : (strL "href" ++ '=' :: q :: (p ++ q2 :: r)).drop (strL "href").length =
        '=' :: q :: (p ++ q2 :: r) := drop_len_append _ _
    simp only [attrParseAt, haq, if_true, hdropa]
    rw [if_pos ⟨trivial, hq⟩, if_neg (by simp [h1, h2])]
    simp only [htw]
    rw [if_neg hp, hdropp]
  · subst ha
    have hnh : (strL "href").isPrefixOf (strL "src" ++ '=' :: q :: (p ++ q2 :: r)) = false :=
      href_not_prefix_src _
    have haq : (strL "src").isPrefixOf (strL "src" ++ '=' :: q :: (p ++ q2 :: r)) = true :=
      isPrefixOf_append_self _ _
    have hdropa : (strL "src" ++ '=' :: q :: (p ++ q2 :: r)).drop (strL "src").length =
        '=' :: q :: (p ++ q2 :: r) := drop_len_append _ _
    simp only [attrParseAt, hnh, haq, if_true, Bool.false_eq_true, if_false, hdropa]
    rw [if_pos ⟨trivial, hq⟩, if_neg (by simp [h1, h2])]
    simp only [htw]
    rw [if_neg hp, hdropp]

theorem attrInnerAux (a0 : List Char) (e q3 : Char) (rest : List Char)
    (a : List Char) (q : Char) (p : List Char) (q2 : Char)
    (ha0 : a0 = strL "href" ∨ a0 = strL "src")
    (h : (if e = '=' ∧ isQuoteCh q3 then
        (if (strL "http://").isPrefixOf rest ∨ (strL "https://").isPrefixOf rest then none
        else
          (if rest.takeWhile (fun c => ¬ isQuoteCh c) = [] then none
          else
            match rest.drop (rest.takeWhile (fun c => ¬ isQuoteCh c)).length with
            | q2x :: _ => some (a0, q3, rest.takeWhile (fun c => ¬ isQuoteCh c), q2x)
            | [] => none))
      else none) = some (a, q, p, q2)) :
    AttrTokAt (a0 ++ e :: q3 :: rest) 0 := by
  by_cases hc : e = '=' ∧ isQuoteCh q3
  · rw [if_pos hc] at h
    obtain ⟨he, hq3⟩ := hc
    subst he
    by_cases hh : (strL "http://").isPrefixOf rest = true ∨
        (strL "https://").isPrefixOf rest = true
    · rw [if_pos hh] at h
      exact Option.noConfusion h
    · rw [if_neg hh] at h
      by_cases hp0 : rest.takeWhile (fun c => ¬ isQuoteCh c) = []
      · rw [if_pos hp0] at h
        exact Option.noConfusion h
      · rw [if_neg hp0] at h
        rcases hd : rest.drop (rest.takeWhile (fun c => ¬ isQuoteCh c)).length with _ | ⟨q2x, u⟩
        · rw [hd] at h
          exact Option.noConfusion h
        · rw [hd] at h
          have hinj : a0 = a ∧ q3 = q ∧
              rest.takeWhile (fun c => ¬ isQuoteCh c) = p ∧ q2x = q2 := by
            simpa using h
          obtain ⟨ha, hqq, hpp, hq2q⟩ := hinj
          obtain ⟨w, hw⟩ := List.takeWhile_prefix (l := rest) (p := fun c => ¬ isQuoteCh c)
          have hwu : w = q2x :: u := by
            have h3 : (rest.takeWhile (fun c => ¬ isQuoteCh c) ++ w).drop
                (rest.takeWhile (fun c => ¬ isQuoteCh c)).length = q2x :: u := by
              rw [hw, hd]
            rwa [drop_len_append] at h3
          have hrest : p ++ q2 :: u = rest := by
            rw [← hpp, ← hq2q, ← hwu, hw]
          refine ⟨a, q, p, q2, u, ?_, hqq ▸ hq3, ?_, ?_, ?_, ?_, ?_, ?_⟩
          · rw [← ha]
            exact ha0
          · have h4 := takeWhile_drop_head (fun c => ¬ isQuoteCh c) rest q2x u hd
            rw [← hq2q]
            simpa using h4
          · rw [← hpp]
            exact hp0
          · intro c hcm
            rw [← hpp] at hcm
            have h5 := List.mem_takeWhile_imp hcm
            simpa using h5
          · rw [hrest]
            intro hcon
            exact hh (Or.inl hcon)
          · rw [hrest]
            intro hcon
            exact hh (Or.inr hcon)
          · rw [List.drop_zero, ha, hqq, hrest]
  · rw [if_neg hc] at h
    exact Option.noConfusion h

theorem attrParseAt_sound (s : List Char) (a : List Char) (q : Char) (p : List Char)
    (q2 : Char) (h : attrParseAt s = some (a, q, p, q2)) : AttrTokAt s 0 := by
  by_cases c1 : (strL "href").isPrefixOf s = true
  · have c1p := c1
    rw [List.isPrefixOf_iff_prefix] at c1p
    obtain ⟨tail, rfl⟩ := c1p
    simp only [attrParseAt, c1, if_true, drop_len_append] at h
    match tail with
    | [] => exact Option.noConfusion h
    | [e] => exact Option.noConfusion h
    | e :: q3 :: rest => exact attrInnerAux (strL "href") e q3 rest a q p q2 (Or.inl rfl) h
  · by_cases c2 : (strL "src").isPrefixOf s = true
    · have c2p := c2
      rw [List.isPrefixOf_iff_prefix] at c2p
      obtain ⟨tail, rfl⟩ := c2p
      have c1f : (strL "href").isPrefixOf (strL "src" ++ tail) = false := by
        rw [← Bool.not_eq_true]
        exact c1
      simp only [attrParseAt, c1f, Bool.false_eq_true, if_false, c2, if_true,
        drop_len_append] at h
      match tail with
      | [] => exact Option.noConfusion h
      | [e] => exact Option.noConfusion h
      | e :: q3 :: rest => exact attrInnerAux (strL "src") e q3 rest a q p q2 (Or.inr rfl) h
    · have c1f : (strL "href").isPrefixOf s = false := by
        rw [← Bool.not_eq_true]
        exact c1
      have c2f : (strL "src").isPrefixOf s = false := by
        rw [← Bool.not_eq_true]
        exact c2
      simp only [attrParseAt, c1f, c2f, Bool.false_eq_true, if_false] at h
      exact Option.noConfusion h

theorem attrParseAt_http (a : List Char) (q : Char) (p rest : List Char)
    (ha : a = strL "href" ∨ a = strL "src") (hq : isQuoteCh q = true)
    (hh : (strL "http://").isPrefixOf p = true ∨ (strL "https://").isPrefixOf p = true) :
    attrParseAt (a ++ '=' :: q :: (p ++ rest)) = none := by
  have hcond : (strL "http://").isPrefixOf (p ++ rest) = true ∨
      (strL "https://").isPrefixOf (p ++ rest) = true := by
    rcases hh with hh | hh
    · exact Or.inl (isPrefixOf_append_of _ _ _ hh)
    · exact Or.inr (isPrefixOf_append_of _ _ _ hh)
  rcases ha with ha | ha
  · subst ha
    have haq : (strL "href").isPrefixOf (strL "href" ++ '=' :: q :: (p ++ rest)) = true :=
      isPrefixOf_append_self _ _
    have hdropa : (strL "href" ++ '=' :: q :: (p ++ rest)).drop (strL "href").length =
        '=' :: q :: (p ++ rest) := drop_len_append _ _
    simp only [attrParseAt, haq, if_true, hdropa]
    rw [if_pos ⟨trivial, hq⟩, if_pos hcond]
  · subst ha
    have hnh : (strL "href").isPrefixOf (strL "src" ++ '=' :: q :: (p ++ rest)) = false :=
      href_not_prefix_src _
    have haq : (strL "src").isPrefixOf (strL "src" ++ '=' :: q :: (p ++ rest)) = true :=
      isPrefixOf_append_self _ _
    have hdropa : (strL "src" ++ '=' :: q :: (p ++ rest)).drop (strL "src").length =
        '=' :: q :: (p ++ rest) := drop_len_append _ _
    simp only [attrParseAt, hnh, haq, if_true, Bool.false_eq_true, if_false, hdropa]
    rw [if_pos ⟨trivial, hq⟩, if_pos hcond]

theorem attrMatcher_none (ps ns : List (List Char × List Char)) (dir pre s : List Char)
    (h : ¬ AttrTokAt s 0) : attrMatcher ps ns dir pre s = none := by
  unfold attrMatcher
  rcases hp : attrParseAt s with _ | ⟨a, q, p, q2⟩
  · rfl
  · exact absurd (attrParseAt_sound s a q p q2 hp) h

theorem attrMatcher_hit (ps ns : List (List Char × List Char)) (dir pre : List Char)
    (a : List Char) (q : Char) (p : List Char) (q2 : Char) (r : List Char)
    (ha : a = strL "href" ∨ a = strL "src") (hq : isQuoteCh q = true)
    (hp : p ≠ []) (hpq : ∀ c ∈ p, isQuoteCh c = false) (hq2 : isQuoteCh q2 = true)
    (h1 : (strL "http://").isPrefixOf (p ++ q2 :: r) = false)
    (h2 : (strL "https://").isPrefixOf (p ++ q2 :: r) = false) :
    attrMatcher ps ns dir pre (a ++ '=' :: q :: (p ++ q2 :: r)) =
      some (a.length + 2 + p.length + 1,
        linkCallback ps ns dir a p (a ++ '=' :: q :: (p ++ [q2]))) := by
  unfold attrMatcher
  rw [attrParseAt_complete a q p q2 r ha hq hp hpq hq2 h1 h2]

/-- C4, counterexample to the claim as stated: when the basename fallback
fires, `path.replace(baseName, newName)` replaces the FIRST occurrence of
the basename in the value, not the filename part — a value whose directory
segment equals the basename gets its directory renamed instead of its
filename. -/
theorem c4_counterexample :
    rewriteLinks [exHtmlA4] (strL "p.html") (strL "<a href=\"a.html/a.html\">") =
      strL "<a href=\"b.html/a.html\">" ∧
    strL "<a href=\"b.html/a.html\">" ≠ strL "<a href=\"a.html/b.html\">" := by
  constructor
  · decide
  · decide

/-- C4 (amended): `http(s)://`-protected values never match the rewrite
regex; a value whose resolution hits the path map is rewritten with its
directory preserved and the filename replaced; a value hitting neither map
is left unchanged; the basename fallback replaces the first occurrence of
the basename inside the value; token-free content is unchanged and the
leftmost attribute occurrence is rewritten through the callback with
scanning continuing behind it. -/
theorem c4_link_rewrite : C4Spec := by
  refine ⟨?_, ?_, ?_, ?_, ?_, ?_⟩
  · intro ps ns dir pre a q p rest ha hq hh
    unfold attrMatcher
    rw [attrParseAt_http a q p rest ha hq hh]
  · intro ps ns dir a p matched newName h
    simp only [linkCallback]
    rw [h]
  · intro ps ns dir a p matched hps hb
    simp only [linkCallback]
    rw [hps]
    show (if lastSeg p = [] then matched else
      match jsMapGet ns (lastSeg p) with
      | some newName => a ++ '=' :: '"' :: replaceFirstT p (lastSeg p) newName ++ ['"']
      | none => matched) = matched
    rcases hb with hb | hb
    · rw [if_pos hb]
    · by_cases hbe : lastSeg p = []
      · rw [if_pos hbe]
      · rw [if_neg hbe, hb]
  · intro ps ns dir a p matched newName i hps hlast hns hdf hfind
    simp only [linkCallback]
    rw [hps]
    show (if lastSeg p = [] then matched else
      match jsMapGet ns (lastSeg p) with
      | some nn => a ++ '=' :: '"' :: replaceFirstT p (lastSeg p) nn ++ ['"']
      | none => matched) =
      a ++ '=' :: '"' :: (p.take i ++ newName ++ p.drop (i + (lastSeg p).length)) ++ ['"']
    rw [if_neg hlast, hns]
    show a ++ '=' :: '"' :: replaceFirstT p (lastSeg p) newName ++ ['"'] = _
    unfold replaceFirstT
    rw [hfind]
    show a ++ '=' :: '"' :: (p.take i ++
        jsRepl [] (lastSeg p) (p.take i) (p.drop (i + (lastSeg p).length)) newName ++
        p.drop (i + (lastSeg p).length)) ++ ['"'] = _
    rw [jsRepl_dollarFree [] (lastSeg p) (p.take i) (p.drop (i + (lastSeg p).length))
      newName hdf]
  · intro files path content hno
    unfold rewriteLinks gsub
    apply gsubF_no_match
    · exact Nat.le_refl _
    · intro aa bb hab hb
      apply attrMatcher_none
      rintro ⟨a2, q2a, p2, q2b, u2, k1, k2, k3, k4, k5, k6, k7, k8⟩
      rw [List.drop_zero] at k8
      exact hno aa.length ⟨a2, q2a, p2, q2b, u2, k1, k2, k3, k4, k5, k6, k7,
        by rw [hab, drop_len_append]; exact k8⟩
  · intro files path u a q p q2 r ha hq hq2 hp hpq hh1 hh2 hno
    have hassoc : a ++ '=' :: q :: (p ++ q2 :: r) = (a ++ '=' :: q :: (p ++ [q2])) ++ r := by
      simp
    rw [hassoc] at hno ⊢
    have hmatch : attrMatcher (files.map (fun f => (f.path, f.newFileName)))
        (files.map (fun f => (f.name, f.newFileName))) (dirOf path) ([] ++ u)
        ((a ++ '=' :: q :: (p ++ [q2])) ++ r) =
        some (a.length + 2 + p.length + 1,
          linkCallback (files.map (fun f => (f.path, f.newFileName)))
            (files.map (fun f => (f.name, f.newFileName))) (dirOf path) a p
            (a ++ '=' :: q :: (p ++ [q2]))) := by
      rw [← hassoc]
      exact attrMatcher_hit _ _ _ _ a q p q2 r ha hq hp hpq hq2 hh1 hh2
    have hbreak := gsubF_break (attrMatcher (files.map (fun f => (f.path, f.newFileName)))
        (files.map (fun f => (f.name, f.newFileName))) (dirOf path)) u
      ((u ++ ((a ++ '=' :: q :: (p ++ [q2])) ++ r)).length) [] ((a ++ '=' :: q :: (p ++ [q2])) ++ r)
      (a.length + 2 + p.length)
      (linkCallback (files.map (fun f => (f.path, f.newFileName)))
        (files.map (fun f => (f.name, f.newFileName))) (dirOf path) a p
        (a ++ '=' :: q :: (p ++ [q2])))
      (Nat.le_refl _) (by simp)
      (fun aa bb hab haa hb => by
        apply attrMatcher_none
        rintro ⟨a2, q2a, p2, q2b, u2, k1, k2, k3, k4, k5, k6, k7, k8⟩
        rw [List.drop_zero] at k8
        exact hno aa.length haa ⟨a2, q2a, p2, q2b, u2, k1, k2, k3, k4, k5, k6, k7,
          by rw [hab, drop_len_append]; exact k8⟩)
      hmatch
    unfold rewriteLinks gsub
    rw [hbreak]
    have htl : (a ++ '=' :: q :: (p ++ [q2])).length = a.length + 2 + p.length + 1 := by
      simp only [List.length_append, List.length_cons, List.length_nil]
      omega
    have htake : ((a ++ '=' :: q :: (p ++ [q2])) ++ r).take (a.length + 2 + p.length + 1) =
        a ++ '=' :: q :: (p ++ [q2]) := by
      rw [← htl]
      exact List.take_left _ _
    have hdrop : ((a ++ '=' :: q :: (p ++ [q2])) ++ r).drop (a.length + 2 + p.length + 1) = r := by
      rw [← htl]
      exact drop_len_append _ _
    rw [htake, hdrop]
    rw [gsubF_pre_irrel (attrMatcher (files.map (fun f => (f.path, f.newFileName)))
        (files.map (fun f => (f.name, f.newFileName))) (dirOf path))
      (fun p1 p2 s => rfl) r.length ([] ++ u ++ (a ++ '=' :: q :: (p ++ [q2]))) [] r]

theorem c4_link_rewrite_witness :
    linkCallback [] [(strL "a.html", strL "b.html")] [] (strL "href")
        (strL "a.html/a.html") (strL "m") =
      strL "href" ++ '=' :: '"' :: ((strL "a.html/a.html").take 0 ++ strL "b.html" ++
        (strL "a.html/a.html").drop (0 + (lastSeg (strL "a.html/a.html")).length)) ++ ['"'] :=
  c4_link_rewrite.2.2.2.1 [] [(strL "a.html", strL "b.html")] [] (strL "href")
    (strL "a.html/a.html") (strL "m") (strL "b.html") 0 (by decide) (by decide) (by decide)
    (by unfold DollarFree; decide) (by decide)

theorem jsRepl_dollarFree_append (groups : List (List Char)) (mtch pre post : List Char) :
    ∀ u t, DollarFree u →
      jsRepl groups mtch pre post (u ++ t) = u ++ jsRepl groups mtch pre post t := by
  intro u
  induction u with
  | nil => intro t _; rfl
  | cons c r ih =>
    intro t h
    have hc : ¬ c = '$' := by
      intro hc; exact h (by rw [hc]; exact List.mem_cons_self _ _)
    have hr : DollarFree r := fun hm => h (List.mem_cons_of_mem _ hm)
    have hstep : jsRepl groups mtch pre post (c :: (r ++ t)) =
        c :: jsRepl groups mtch pre post (r ++ t) := by
      conv_lhs => rw [jsRepl.eq_def]
      simp [hc]
    rw [List.cons_append, hstep, ih t hr, List.cons_append]

theorem jsRepl_group1 (q q2 : Char) (mtch pre post t : List Char) :
    jsRepl [[q], [q2]] mtch pre post ('$' :: '1' :: t) =
      q :: jsRepl [[q], [q2]] mtch pre post t := by
  conv_lhs => rw [jsRepl.eq_def]
  norm_num [backtickCh, quoteCh]
  rw [if_neg (by decide), if_neg (by decide), if_neg (by decide), if_neg (by decide),
    if_pos (by decide)]
  rfl

theorem jsRepl_group2 (q q2 : Char) (mtch pre post t : List Char) :
    jsRepl [[q], [q2]] mtch pre post ('$' :: '2' :: t) =
      q2 :: jsRepl [[q], [q2]] mtch pre post t := by
  conv_lhs => rw [jsRepl.eq_def]
  norm_num [backtickCh, quoteCh]
  rw [if_neg (by decide), if_neg (by decide), if_neg (by decide), if_neg (by decide),
    if_pos (by decide)]
  rfl

theorem jsRepl_quote_template (q q2 : Char) (mtch pre post url : List Char)
    (hdf : DollarFree url) :
    jsRepl [[q], [q2]] mtch pre post (strL "$1" ++ url ++ strL "$2") =
      q :: (url ++ [q2]) := by
  rw [show strL "$1" ++ url ++ strL "$2" = '$' :: '1' :: (url ++ strL "$2") from by
    rw [List.append_assoc]
    rfl]
  rw [jsRepl_group1, jsRepl_dollarFree_append _ _ _ _ url (strL "$2") hdf]
  rw [show strL "$2" = '$' :: '2' :: ([] : List Char) from rfl]
  rw [jsRepl_group2]
  rfl

theorem quoteRefMatcher_none (ref url pre s : List Char)
    (h : ¬ QuoteOccAt ref s 0) : quoteRefMatcher ref url pre s = none := by
  unfold quoteRefMatcher
  cases s with
  | nil => rfl
  | cons q rest =>
    show (if isQuoteCh q = true ∧ ref.isPrefixOf rest = true then
        match rest.drop ref.length with
        | q2 :: after =>
          if isQuoteCh q2 = true then
            some (ref.length + 2,
              jsRepl [[q], [q2]] (q :: (ref ++ [q2])) pre after
                (strL "$1" ++ url ++ strL "$2"))
          else none
        | [] => none
      else none) = none
    by_cases hc : isQuoteCh q = true ∧ ref.isPrefixOf rest = true
    · rw [if_pos hc]
      obtain ⟨hq, hpre⟩ := hc
      obtain ⟨u0, rfl⟩ := prefix_exists_of_isPrefixOf hpre
      rw [drop_len_append]
      cases u0 with
      | nil => rfl
      | cons q2 after =>
        show (if isQuoteCh q2 then
            some (ref.length + 2,
              jsRepl [[q], [q2]] (q :: (ref ++ [q2])) pre after
                (strL "$1" ++ url ++ strL "$2"))
          else none) = none
        by_cases hq2 : isQuoteCh q2 = true
        · exact absurd ⟨q, q2, after, hq, hq2, by rw [List.drop_zero]⟩ h
        · rw [if_neg hq2]
    · rw [if_neg hc]

theorem quoteRefMatcher_hit (ref url pre : List Char) (q q2 : Char) (r : List Char)
    (hq : isQuoteCh q = true) (hq2 : isQuoteCh q2 = true) (hdf : DollarFree url) :
    quoteRefMatcher ref url pre (q :: (ref ++ q2 :: r)) =
      some (ref.length + 2, q :: (url ++ [q2])) := by
  unfold quoteRefMatcher
  show (if isQuoteCh q = true ∧ ref.isPrefixOf (ref ++ q2 :: r) = true then
      match (ref ++ q2 :: r).drop ref.length with
      | q2x :: after =>
        if isQuoteCh q2x = true then
          some (ref.length + 2,
            jsRepl [[q], [q2x]] (q :: (ref ++ [q2x])) pre after
              (strL "$1" ++ url ++ strL "$2"))
        else none
      | [] => none
    else none) = _
  rw [if_pos ⟨hq, isPrefixOf_append_self ref (q2 :: r)⟩, drop_len_append]
  show (if isQuoteCh q2 then
      some (ref.length + 2,
        jsRepl [[q], [q2]] (q :: (ref ++ [q2])) pre r
          (strL "$1" ++ url ++ strL "$2"))
    else none) = _
  rw [if_pos hq2, jsRepl_quote_template q q2 (q :: (ref ++ [q2])) pre r url hdf]

theorem quoteRefMatcher_pre_irrel (ref url : List Char) (hdf : DollarFree url) :
    ∀ p1 p2 s, quoteRefMatcher ref url p1 s = quoteRefMatcher ref url p2 s := by
  intro p1 p2 s
  unfold quoteRefMatcher
  cases s with
  | nil => rfl
  | cons q rest =>
    show (if isQuoteCh q = true ∧ ref.isPrefixOf rest = true then
        match rest.drop ref.length with
        | q2 :: after =>
          if isQuoteCh q2 = true then
            some (ref.length + 2,
              jsRepl [[q], [q2]] (q :: (ref ++ [q2])) p1 after
                (strL "$1" ++ url ++ strL "$2"))
          else none
        | [] => none
      else none) =
      (if isQuoteCh q = true ∧ ref.isPrefixOf rest = true then
        match rest.drop ref.length with
        | q2 :: after =>
          if isQuoteCh q2 = true then
            some (ref.length + 2,
              jsRepl [[q], [q2]] (q :: (ref ++ [q2])) p2 after
                (strL "$1" ++ url ++ strL "$2"))
          else none
        | [] => none
      else none)
    by_cases hc : isQuoteCh q = true ∧ ref.isPrefixOf rest = true
    · rw [if_pos hc, if_pos hc]
      rcases hd : rest.drop ref.length with _ | ⟨q2, after⟩
      · rfl
      · show (if isQuoteCh q2 then
            some (ref.length + 2,
              jsRepl [[q], [q2]] (q :: (ref ++ [q2])) p1 after
                (strL "$1" ++ url ++ strL "$2"))
          else none) =
          (if isQuoteCh q2 then
            some (ref.length + 2,
              jsRepl [[q], [q2]] (q :: (ref ++ [q2])) p2 after
                (strL "$1" ++ url ++ strL "$2"))
          else none)
        by_cases hq2 : isQuoteCh q2 = true
        · rw [if_pos hq2, if_pos hq2,
            jsRepl_quote_template q q2 (q :: (ref ++ [q2])) p1 after url hdf,
            jsRepl_quote_template q q2 (q :: (ref ++ [q2])) p2 after url hdf]
        · rw [if_neg hq2, if_neg hq2]
    · rw [if_neg hc, if_neg hc]

/-- C8, counterexample to the claim as stated: quote-delimited occurrences
can overlap on a shared quote, and the JavaScript scan resumes after the
consumed closing quote — the content has two quote-delimited occurrences of
the reference but only the first is replaced, and a quote-delimited
occurrence remains in the output. -/
theorem c8_counterexample :
    previewStep [(strL "a", exAsset8)] []
        (quoteCh :: (strL "a" ++ quoteCh :: (strL "a" ++ [quoteCh]))) (strL "a") =
      quoteCh :: (strL "URL" ++ quoteCh :: (strL "a" ++ [quoteCh])) ∧
    QuoteOccAt (strL "a")
      (quoteCh :: (strL "URL" ++ quoteCh :: (strL "a" ++ [quoteCh]))) 4 := by
  constructor
  · decide
  · exact ⟨quoteCh, quoteCh, [], by decide, by decide, by decide⟩

/-- C8 (amended): `http`/`data:` references are skipped; a reference
resolving to no uploaded asset, or to one without an object URL, leaves the
content unchanged; for an assigned reference the content is unchanged when
it has no quote-delimited occurrence, and otherwise the leftmost occurrence
is replaced by the object URL between the original quotes with scanning
resuming after the consumed closing quote. -/
theorem c8_preview_rewrite : C8Spec := by
  refine ⟨?_, ?_, ?_, ?_⟩
  · intro fm bp content ref h
    unfold previewStep
    rw [if_pos (Or.inr h)]
  · intro fm bp content ref h
    unfold previewStep
    by_cases h0 : ref = [] ∨ (strL "http").isPrefixOf ref = true ∨
        (strL "data:").isPrefixOf ref = true
    · rw [if_pos h0]
    · rw [if_neg h0]
      rcases h with h | ⟨af, haf, hobj⟩
      · rw [h]
      · rw [haf]
        show (match af.objectUrl with
          | some url => gsub (quoteRefMatcher ref url) content
          | none => content) = content
        rw [hobj]
  · intro ref url content hno
    unfold gsub
    apply gsubF_no_match
    · exact Nat.le_refl _
    · intro aa bb hab hb
      apply quoteRefMatcher_none
      rintro ⟨qa, qb, u2, k1, k2, k3⟩
      rw [List.drop_zero] at k3
      exact hno aa.length ⟨qa, qb, u2, k1, k2, by rw [hab, drop_len_append]; exact k3⟩
  · intro ref url u q q2 r hdf hq hq2 hno
    have hassoc : q :: (ref ++ q2 :: r) = (q :: (ref ++ [q2])) ++ r := by simp
    rw [hassoc] at hno ⊢
    have hmatch : quoteRefMatcher ref url ([] ++ u) ((q :: (ref ++ [q2])) ++ r) =
        some (ref.length + 1 + 1, q :: (url ++ [q2])) := by
      rw [← hassoc]
      exact quoteRefMatcher_hit ref url ([] ++ u) q q2 r hq hq2 hdf
    have hbreak := gsubF_break (quoteRefMatcher ref url) u
      ((u ++ ((q :: (ref ++ [q2])) ++ r)).length) [] ((q :: (ref ++ [q2])) ++ r)
      (ref.length + 1) (q :: (url ++ [q2]))
      (Nat.le_refl _) (by simp)
      (fun aa bb hab haa hb => by
        apply quoteRefMatcher_none
        rintro ⟨qa, qb, u2, k1, k2, k3⟩
        rw [List.drop_zero] at k3
        exact hno aa.length haa ⟨qa, qb, u2, k1, k2,
          by rw [hab, drop_len_append]; exact k3⟩)
      hmatch
    unfold gsub
    rw [hbreak]
    have htl : (q :: (ref ++ [q2])).length = ref.length + 1 + 1 := by
      simp only [List.length_cons, List.length_append, List.length_nil]
    have htake : ((q :: (ref ++ [q2])) ++ r).take (ref.length + 1 + 1) = q :: (ref ++ [q2]) := by
      rw [← htl]
      exact List.take_left _ _
    have hdrop : ((q :: (ref ++ [q2])) ++ r).drop (ref.length + 1 + 1) = r := by
      rw [← htl]
      exact drop_len_append _ _
    rw [htake, hdrop]
    rw [gsubF_pre_irrel (quoteRefMatcher ref url) (quoteRefMatcher_pre_irrel ref url hdf)
      r.length ([] ++ u ++ (q :: (ref ++ [q2]))) [] r]

theorem c8_preview_rewrite_witness :
    previewStep [] [] (strL "c") (strL "http://x") = strL "c" :=
  c8_preview_rewrite.1 [] [] (strL "c") (strL "http://x") (Or.inl (by decide))

set_option maxRecDepth 40000 in
/-- C10: the claim fails on fenced code blocks — `parseMarkdown` pipes the
code content through `escapeRegExp`, which escapes regex metacharacters and
leaves `<` and `>` untouched, so markup inside a fenced block reaches the
output raw and unescaped instead of as `&lt;`/`&gt;`. -/
theorem c10_markdown_escaping_bug :
    containsSub (parseMarkdown (strL "```\n<b>x</b>\n```")) (strL "<b>x</b>") = true ∧
    containsSub (parseMarkdown (strL "```\n<b>x</b>\n```")) (strL "&lt;") = false ∧
    parseMarkdown (strL "```\n<b>x</b>\n```") =
      strL "<pre class=\"bg-gray-900 rounded-md p-3 my-2 overflow-x-auto\"><code class=\"language- text-sm\"><b>x</b></code></pre>\n" := by
  refine ⟨by decide, by decide, by decide⟩
